import Mathlib

/-!
Shallow embedding of `src/eu_lex_etl/etl.py` (the passage-classification and
sentence-segmentation core of the eu-lex-etl repository).

Strings are modelled as `List Char`.  The two fixed regex pattern lists
(`_ISOLATED_MARKER_PATTERNS`, `_STARTING_MARKER_PATTERNS`) are modelled as
ordered lists of deterministic matchers; each sub-pattern of the source is a
simple concatenation of character-class runs and literal characters, for which
greedy maximal-munch matching coincides with Python `re` backtracking
semantics (a quantified class is never followed by a character that the class
itself could absorb).  Alternation order (including the duplicated
guillemet-prefixed variants produced by `_build_patterns_list`) is preserved,
matching Python's leftmost-alternative-wins behaviour.  `re.IGNORECASE` is
reflected by letting the letter class accept both cases.

The walker `_parse_html_passages` is embedded as `stepBlock` / `walkBlocks` /
`parse_html_passages`, with Python runtime errors (AssertionError on a
non-list class attribute, IndexError on an empty class attribute, NameError
for the unbound pre-scan loop variable on an empty block sequence) made
explicit in an `Except` result.
-/

/-- `[0-9]` character class. -/
def isDigitC (c : Char) : Bool := c.isDigit

/-- `[a-z]` character class under `re.IGNORECASE`. -/
def isAlphaC (c : Char) : Bool := c.isAlpha

/-- `\s` character class (whitespace, including the non-breaking space). -/
def isSpaceC (c : Char) : Bool :=
  c = ' ' || c = '\t' || c = '\n' || c = '\r' || c = '\x0b' || c = '\x0c' || c = '\xa0'

/-- Python `str.strip()`: drop whitespace at both ends. -/
def pyStrip (s : List Char) : List Char :=
  ((s.dropWhile isSpaceC).reverse.dropWhile isSpaceC).reverse

/-- Fuel-driven worker for `re.sub("(\xa0)+", " ", text)`: each maximal run of
non-breaking spaces becomes a single ordinary space. -/
def normNbspAux : Nat → List Char → List Char
  | 0, s => s
  | _ + 1, [] => []
  | fuel + 1, c :: rest =>
    if c = '\xa0' then ' ' :: normNbspAux fuel (rest.dropWhile (fun d => d = '\xa0'))
    else c :: normNbspAux fuel rest

/-- `re.sub(pattern="(\xa0)+", repl=" ", string=text)`. -/
def normNbsp (s : List Char) : List Char := normNbspAux s.length s

/-- The text normalisation applied to every non-ignored block:
`text = tag.text.strip()` followed by the non-breaking-space substitution. -/
def normText (s : List Char) : List Char := normNbsp (pyStrip s)

/-- Fuel-driven worker for Python `str.replace(pat, "")`: remove the leftmost
occurrence of `pat`, continue after it (non-overlapping), scanning left to
right. -/
def replaceAllAux (pat : List Char) : Nat → List Char → List Char
  | 0, s => s
  | _ + 1, [] => []
  | fuel + 1, c :: rest =>
    if pat ≠ [] ∧ pat.isPrefixOf (c :: rest) then
      replaceAllAux pat fuel (List.drop (pat.length - 1) rest)
    else c :: replaceAllAux pat fuel rest

/-- Python `s.replace(pat, "")` (for empty `pat` this is the identity, exactly
as in Python where replacing `""` by `""` changes nothing). -/
def replaceAll (pat s : List Char) : List Char := replaceAllAux pat s.length s

/-- `pat` occurs as a contiguous substring of `s`. -/
def occursIn (pat : List Char) : List Char → Bool
  | [] => pat.isEmpty
  | c :: rest => pat.isPrefixOf (c :: rest) || occursIn pat rest

/-- A deterministic prefix matcher: on success it returns the consumed prefix
and the remaining input. -/
abbrev Matcher := List Char → Option (List Char × List Char)

/-- Empty matcher (neutral element of concatenation). -/
def mEps : Matcher := fun s => some ([], s)

/-- A single literal character. -/
def charTok (c : Char) : Matcher := fun s =>
  match s with
  | c' :: rest => if c' = c then some ([c'], rest) else none
  | [] => none

/-- A single character of a class (e.g. `[a-z]`). -/
def cls1 (p : Char → Bool) : Matcher := fun s =>
  match s with
  | c :: rest => if p c then some ([c], rest) else none
  | [] => none

/-- A maximal nonempty run of a character class (e.g. `[0-9]+`). -/
def many1 (p : Char → Bool) : Matcher := fun s =>
  if s.takeWhile p = [] then none else some (s.takeWhile p, s.dropWhile p)

/-- Sequential composition of matchers. -/
def mseq (m1 m2 : Matcher) : Matcher := fun s =>
  match m1 s with
  | none => none
  | some (a, r) =>
    match m2 r with
    | none => none
    | some (b, r') => some (a ++ b, r')

/-- Concatenation of a list of matchers. -/
def mcat (ms : List Matcher) : Matcher := ms.foldl mseq mEps

/-- Fuel-driven greedy repetition (at least one occurrence). -/
def rep1Aux (m : Matcher) : Nat → Matcher
  | 0 => fun _ => none
  | fuel + 1 => fun s =>
    match m s with
    | none => none
    | some (a, r) =>
      match rep1Aux m fuel r with
      | some (b, r') => some (a ++ b, r')
      | none => some (a, r)

/-- Greedy `+` repetition of a matcher that consumes at least one character. -/
def rep1 (m : Matcher) : Matcher := fun s => rep1Aux m (s.length + 1) s

/-- The repeated unit `[0-9]+\.` of the `([0-9]+\.)+` sub-patterns. -/
def numDot : Matcher := mseq (many1 isDigitC) (charTok '.')

/-- The thirteen sub-patterns of `ETL._ISOLATED_MARKER_PATTERNS`, in source
order (constructor names describe the pattern shape). -/
inductive IsoPat where
  | repNumDot
  | repNumDotDashADot
  | repNumDotDashAParen
  | parenNum
  | numParen
  | parenAlpha
  | alphaParen
  | numDotP
  | alphaDotP
  | emDash
  | numDashAParen
  | numDashADot
  | alphaDashAParen
deriving DecidableEq

/-- Matcher for the body of each isolated-marker sub-pattern (the trailing `$`
anchor is imposed by `isoFull`). -/
def isoMatcher : IsoPat → Matcher
  | .repNumDot => rep1 numDot
  | .repNumDotDashADot => mcat [rep1 numDot, charTok '-', cls1 isAlphaC, charTok '.']
  | .repNumDotDashAParen => mcat [rep1 numDot, charTok '-', cls1 isAlphaC, charTok ')']
  | .parenNum => mcat [charTok '(', many1 isDigitC, charTok ')']
  | .numParen => mcat [many1 isDigitC, charTok ')']
  | .parenAlpha => mcat [charTok '(', many1 isAlphaC, charTok ')']
  | .alphaParen => mcat [many1 isAlphaC, charTok ')']
  | .numDotP => mcat [many1 isDigitC, charTok '.']
  | .alphaDotP => mcat [many1 isAlphaC, charTok '.']
  | .emDash => charTok '—'
  | .numDashAParen => mcat [many1 isDigitC, charTok '-', cls1 isAlphaC, charTok ')']
  | .numDashADot => mcat [many1 isDigitC, charTok '-', cls1 isAlphaC, charTok '.']
  | .alphaDashAParen => mcat [many1 isAlphaC, charTok '-', cls1 isAlphaC, charTok ')']

/-- `ETL._ISOLATED_MARKER_PATTERNS` in source order. -/
def ISOLATED_MARKER_PATTERNS : List IsoPat :=
  [.repNumDot, .repNumDotDashADot, .repNumDotDashAParen, .parenNum, .numParen,
   .parenAlpha, .alphaParen, .numDotP, .alphaDotP, .emDash,
   .numDashAParen, .numDashADot, .alphaDashAParen]

/-- An isolated sub-pattern matches the whole string (the `^ ... $` anchors of
the compiled alternation). -/
def isoFull (p : IsoPat) (s : List Char) : Bool :=
  match isoMatcher p s with
  | some (_, []) => true
  | _ => false

/-- `self.isolated_marker_pattern.match(text)` viewed as a Boolean: some
alternative (`^P$` or `^«P$`, per `_build_patterns_list`) matches. -/
def isolatedMatch (s : List Char) : Bool :=
  ISOLATED_MARKER_PATTERNS.any (fun p =>
    isoFull p s ||
    (match s with
     | '«' :: t => isoFull p t
     | _ => false))

/-- The fourteen sub-patterns of `ETL._STARTING_MARKER_PATTERNS`, in source
order. -/
inductive StartPat where
  | nDotNDashADot
  | nDotNDashAParen
  | nDashADot
  | nDashAParen
  | nDashASpace
  | nADotSpace
  | nDotRep
  | parenNum
  | numParen
  | parenAlpha
  | alphaParen
  | nDot
  | nSpace
  | alphaDot
deriving DecidableEq

/-- Matcher for each starting-marker sub-pattern. -/
def startMatcher : StartPat → Matcher
  | .nDotNDashADot =>
    mcat [many1 isDigitC, charTok '.', many1 isDigitC, charTok '-', cls1 isAlphaC, charTok '.']
  | .nDotNDashAParen =>
    mcat [many1 isDigitC, charTok '.', many1 isDigitC, charTok '-', cls1 isAlphaC, charTok ')']
  | .nDashADot => mcat [many1 isDigitC, charTok '-', cls1 isAlphaC, charTok '.']
  | .nDashAParen => mcat [many1 isDigitC, charTok '-', cls1 isAlphaC, charTok ')']
  | .nDashASpace => mcat [many1 isDigitC, charTok '-', cls1 isAlphaC, many1 isSpaceC]
  | .nADotSpace => mcat [many1 isDigitC, cls1 isAlphaC, charTok '.', many1 isSpaceC]
  | .nDotRep => rep1 numDot
  | .parenNum => mcat [charTok '(', many1 isDigitC, charTok ')']
  | .numParen => mcat [many1 isDigitC, charTok ')']
  | .parenAlpha => mcat [charTok '(', many1 isAlphaC, charTok ')']
  | .alphaParen => mcat [many1 isAlphaC, charTok ')']
  | .nDot => mcat [many1 isDigitC, charTok '.']
  | .nSpace => mcat [many1 isDigitC, many1 isSpaceC]
  | .alphaDot => mcat [many1 isAlphaC, charTok '.']

/-- `ETL._STARTING_MARKER_PATTERNS` in source order. -/
def STARTING_MARKER_PATTERNS : List StartPat :=
  [.nDotNDashADot, .nDotNDashAParen, .nDashADot, .nDashAParen, .nDashASpace,
   .nADotSpace, .nDotRep, .parenNum, .numParen, .parenAlpha,
   .alphaParen, .nDot, .nSpace, .alphaDot]

/-- One starting-marker sub-pattern expanded to its two alternatives `^P` and
`^«P` (in this order), returning the full matched prefix (`m.group()`). -/
def startAlt (p : StartPat) (s : List Char) : Option (List Char) :=
  match startMatcher p s with
  | some (a, _) => some a
  | none =>
    match s with
    | c :: t =>
      if c = '«' then
        match startMatcher p t with
        | some (a, _) => some ('«' :: a)
        | none => none
      else none
    | [] => none

/-- Leftmost-alternative-wins over the ordered sub-pattern list. -/
def firstStart : List StartPat → List Char → Option (List Char)
  | [], _ => none
  | p :: ps, s =>
    match startAlt p s with
    | some m => some m
    | none => firstStart ps s

/-- `self.starting_marker_pattern.match(text)`, returning `m.group()` on
success. -/
def startingMatch (s : List Char) : Option (List Char) :=
  firstStart STARTING_MARKER_PATTERNS s

/-- Outcome of the Marker Classifier. -/
inductive MarkerClass where
  | isolated (marker : List Char)
  | starting (marker body : List Char)
  | noMarker (body : List Char)
deriving DecidableEq

/-- The Marker Classifier: the three-way branch of the body-text handler in
`ETL._parse_html_passages` (lines 278-285).  In the isolated branch the stored
reference is the whole text; in the starting branch the marker is
`marker_match.group()` and the body is `text.replace(ref, "").strip()`. -/
def classifyMarker (s : List Char) : MarkerClass :=
  if isolatedMatch s then .isolated s
  else
    match startingMatch s with
    | some m => .starting m (pyStrip (replaceAll m s))
    | none => .noMarker s

/-- Modelled from the spec (§4.1 starting-marker test), for the refinement
comparison of claim C2 only: the remainder is "the string with the matched
prefix removed and surrounding whitespace trimmed". -/
def specRemainder (m s : List Char) : List Char := pyStrip (s.drop m.length)

/-- A `tag["class"]` attribute value: either a plain string (malformed for
this walker) or a list of class labels. -/
inductive ClassAttr where
  | pystr (s : List Char)
  | pylist (cs : List (List Char))
deriving DecidableEq

/-- A styled block: `(tag["class"], tag.text)`. -/
structure Block where
  cls : ClassAttr
  text : List Char
deriving DecidableEq

/-- An emitted record (src/eu_lex_etl/schemas.py, `Record`). -/
structure Record where
  document : String
  heading : List Char
  section_ : List Char
  article : List Char
  article_subtitle : List Char
  text : List Char
  ref : List Char
deriving DecidableEq

/-- Python runtime errors surfaced by `_parse_html_passages`. -/
inductive PyErr where
  | nameError
  | indexError
  | assertionError (msg : String)
deriving DecidableEq

/-- Walker state: the hierarchical context, pending reference, previous-marker
flag and accumulated records. -/
structure WalkState where
  heading : List Char
  section_ : List Char
  article : List Char
  article_subtitle : List Char
  ref : List Char
  prevMarker : Bool
  records : List Record
deriving DecidableEq

/-- Initial walker state. -/
def initState : WalkState :=
  { heading := [], section_ := [], article := [], article_subtitle := [],
    ref := [], prevMarker := false, records := [] }

/-- `self.css_classes_to_ignore`: the base classes plus their `oj-` variants. -/
def css_classes_to_ignore : List (List Char) :=
  ["signatory".data, "note".data, "oj-signatory".data, "oj-note".data]

/-- `tag["class"][0]` as evaluated in the pre-scan loop (no assert there): for
a plain string Python indexing yields its first character, for a list its
first element; both raise IndexError when empty. -/
def getClass0 : ClassAttr → Except PyErr (List Char)
  | .pystr [] => .error .indexError
  | .pystr (c :: _) => .ok [c]
  | .pylist [] => .error .indexError
  | .pylist (c0 :: _) => .ok c0

/-- The body-text branch of the main loop (lines 277-301): classify the
normalised text, update the pending reference and possibly emit one record.
No hierarchical-context field is touched here.  `text` is the already
normalised block text. -/
def stepNormal (doc : String) (st : WalkState) (text : List Char) : WalkState :=
  match classifyMarker text with
  | .isolated mk => { st with ref := mk, prevMarker := true }
  | .starting mk body =>
    let r : Record :=
      ⟨doc, st.heading, st.section_, st.article, st.article_subtitle, body, mk⟩
    { st with ref := mk, prevMarker := false, records := st.records ++ [r] }
  | .noMarker body =>
    let newRef := if st.prevMarker then st.ref else []
    let r : Record :=
      ⟨doc, st.heading, st.section_, st.article, st.article_subtitle, body, newRef⟩
    { st with ref := newRef, prevMarker := false, records := st.records ++ [r] }

/-- Processing of one block of the main loop of `_parse_html_passages`
(lines 236-301). -/
def stepBlock (doc : String) (st : WalkState) (b : Block) : Except PyErr WalkState :=
  match b.cls with
  | .pystr _ => .error (.assertionError "The CSS class attr is not a list")
  | .pylist [] => .error .indexError
  | .pylist (c0 :: _) =>
    if c0 ∈ css_classes_to_ignore then .ok st
    else
      let text := normText b.text
      let st1 :=
        if ("doc-ti".data.isPrefixOf c0 || "oj-doc-ti".data.isPrefixOf c0) then
          { st with heading := text, section_ := [], article := [],
                    article_subtitle := [], ref := [] }
        else st
      if ("ti-section".data.isPrefixOf c0 || "oj-ti-section".data.isPrefixOf c0) then
        .ok { st1 with section_ := text, article := [], article_subtitle := [], ref := [] }
      else if c0 = "ti-art".data ∨ c0 = "oj-ti-art".data then
        .ok { st1 with article := text, article_subtitle := [], ref := [] }
      else if c0 = "sti-art".data ∨ c0 = "oj-sti-art".data then
        .ok { st1 with article_subtitle := text }
      else if c0 = "normal".data ∨ c0 = "oj-normal".data then
        .ok (stepNormal doc st1 text)
      else .ok st1

/-- The main loop over the post-pre-scan slice of the block list. -/
def walkBlocks (doc : String) (st : WalkState) : List Block → Except PyErr WalkState
  | [] => .ok st
  | b :: rest =>
    match stepBlock doc st b with
    | .error e => .error e
    | .ok st' => walkBlocks doc st' rest

/-- Pre-scan worker: Python leaves the loop variable at the index of the first
body-text block, or at the last index when no block matches. -/
def prescanAux (i : Nat) : List Block → Except PyErr Nat
  | [] => .ok (i - 1)
  | b :: rest =>
    match getClass0 b.cls with
    | .error e => .error e
    | .ok c0 =>
      if c0 = "normal".data ∨ c0 = "oj-normal".data then .ok i
      else prescanAux (i + 1) rest

/-- The pre-scan loop (lines 231-233): on an empty sequence the loop variable
`i` is never bound, so the subsequent slice raises NameError. -/
def prescan : List Block → Except PyErr Nat
  | [] => .error .nameError
  | bs => prescanAux 0 bs

/-- `ETL._parse_html_passages`. -/
def parse_html_passages (doc : String) (blocks : List Block) :
    Except PyErr (List Record) :=
  match prescan blocks with
  | .error e => .error e
  | .ok i =>
    match walkBlocks doc initState (blocks.drop i) with
    | .error e => .error e
    | .ok st => .ok st.records

/-! ### Soundness of the matchers: a successful match consumes a prefix, and
every sub-pattern consumes at least one character. -/

/-- A matcher is sound when a successful run splits its input. -/
def MSound (m : Matcher) : Prop := ∀ s a r, m s = some (a, r) → s = a ++ r

/-- A matcher is consuming when a successful run consumes at least one
character. -/
def MCons (m : Matcher) : Prop := ∀ s a r, m s = some (a, r) → a ≠ []

theorem msound_mEps : MSound mEps := by
  intro s a r h
  simp only [mEps, Option.some.injEq, Prod.mk.injEq] at h
  rw [← h.1, ← h.2]
  rfl

theorem msound_charTok (c : Char) : MSound (charTok c) := by
  intro s a r h
  cases s with
  | nil => simp [charTok] at h
  | cons c' rest =>
    by_cases hc : c' = c
    · simp only [charTok, if_pos hc, Option.some.injEq, Prod.mk.injEq] at h
      rw [← h.1, ← h.2]
      rfl
    · simp [charTok, hc] at h

theorem msound_cls1 (p : Char → Bool) : MSound (cls1 p) := by
  intro s a r h
  cases s with
  | nil => simp [cls1] at h
  | cons c rest =>
    by_cases hc : p c = true
    · simp only [cls1, if_pos hc, Option.some.injEq, Prod.mk.injEq] at h
      rw [← h.1, ← h.2]
      rfl
    · simp [cls1, hc] at h

theorem msound_many1 (p : Char → Bool) : MSound (many1 p) := by
  intro s a r h
  by_cases he : s.takeWhile p = []
  · simp [many1, he] at h
  · simp only [many1, if_neg he, Option.some.injEq, Prod.mk.injEq] at h
    rw [← h.1, ← h.2]
    exact (List.takeWhile_append_dropWhile p s).symm

theorem msound_mseq {m1 m2 : Matcher} (h1 : MSound m1) (h2 : MSound m2) :
    MSound (mseq m1 m2) := by
  intro s a r h
  simp only [mseq] at h
  split at h
  · exact Option.noConfusion h
  · rename_i a1 r1 e1
    split at h
    · exact Option.noConfusion h
    · rename_i b r' e2
      simp only [Option.some.injEq, Prod.mk.injEq] at h
      rw [← h.1, ← h.2, h1 _ a1 r1 e1, h2 r1 b r' e2, List.append_assoc]

theorem msound_foldl : ∀ (ms : List Matcher) (acc : Matcher), MSound acc →
    (∀ m ∈ ms, MSound m) → MSound (ms.foldl mseq acc) := by
  intro ms
  induction ms with
  | nil => intro acc hacc _; simpa using hacc
  | cons m ms ih =>
    intro acc hacc hms
    simp only [List.foldl_cons]
    exact ih (mseq acc m) (msound_mseq hacc (hms m (by simp)))
      (fun m' hm' => hms m' (by simp [hm']))

theorem msound_mcat {ms : List Matcher} (hms : ∀ m ∈ ms, MSound m) :
    MSound (mcat ms) :=
  msound_foldl ms mEps msound_mEps hms

theorem msound_rep1Aux {m : Matcher} (hm : MSound m) :
    ∀ fuel, MSound (rep1Aux m fuel) := by
  intro fuel
  induction fuel with
  | zero => intro s a r h; simp [rep1Aux] at h
  | succ n ih =>
    intro s a r h
    simp only [rep1Aux] at h
    split at h
    · exact Option.noConfusion h
    · rename_i a1 r1 e1
      split at h
      · rename_i b r' e2
        simp only [Option.some.injEq, Prod.mk.injEq] at h
        rw [← h.1, ← h.2, hm s a1 r1 e1, ih r1 b r' e2, List.append_assoc]
      · simp only [Option.some.injEq, Prod.mk.injEq] at h
        rw [← h.1, ← h.2]
        exact hm s a1 r1 e1

theorem msound_rep1 {m : Matcher} (hm : MSound m) : MSound (rep1 m) := by
  intro s a r h
  exact msound_rep1Aux hm (s.length + 1) s a r h

theorem msound_numDot : MSound numDot :=
  msound_mseq (msound_many1 isDigitC) (msound_charTok '.')

theorem mcons_charTok (c : Char) : MCons (charTok c) := by
  intro s a r h
  cases s with
  | nil => simp [charTok] at h
  | cons c' rest =>
    by_cases hc : c' = c
    · simp only [charTok, if_pos hc, Option.some.injEq, Prod.mk.injEq] at h
      rw [← h.1]
      simp
    · simp [charTok, hc] at h

theorem mcons_cls1 (p : Char → Bool) : MCons (cls1 p) := by
  intro s a r h
  cases s with
  | nil => simp [cls1] at h
  | cons c rest =>
    by_cases hc : p c = true
    · simp only [cls1, if_pos hc, Option.some.injEq, Prod.mk.injEq] at h
      rw [← h.1]
      simp
    · simp [cls1, hc] at h

theorem mcons_many1 (p : Char → Bool) : MCons (many1 p) := by
  intro s a r h
  by_cases he : s.takeWhile p = []
  · simp [many1, he] at h
  · simp only [many1, if_neg he, Option.some.injEq, Prod.mk.injEq] at h
    rw [← h.1]
    exact he

theorem mcons_mseq_left {m1 m2 : Matcher} (h1 : MCons m1) : MCons (mseq m1 m2) := by
  intro s a r h
  simp only [mseq] at h
  split at h
  · exact Option.noConfusion h
  · rename_i a1 r1 e1
    split at h
    · exact Option.noConfusion h
    · rename_i b r' e2
      simp only [Option.some.injEq, Prod.mk.injEq] at h
      rw [← h.1]
      exact fun hn => (h1 _ a1 r1 e1) (List.append_eq_nil.mp hn).1

theorem mcons_mseq_right {m1 m2 : Matcher} (h2 : MCons m2) : MCons (mseq m1 m2) := by
  intro s a r h
  simp only [mseq] at h
  split at h
  · exact Option.noConfusion h
  · rename_i a1 r1 e1
    split at h
    · exact Option.noConfusion h
    · rename_i b r' e2
      simp only [Option.some.injEq, Prod.mk.injEq] at h
      rw [← h.1]
      exact fun hn => (h2 r1 b r' e2) (List.append_eq_nil.mp hn).2

theorem mcons_foldl : ∀ (ms : List Matcher) (acc : Matcher), MCons acc →
    MCons (ms.foldl mseq acc) := by
  intro ms
  induction ms with
  | nil => intro acc hacc; simpa using hacc
  | cons m ms ih =>
    intro acc hacc
    simp only [List.foldl_cons]
    exact ih (mseq acc m) (mcons_mseq_left hacc)

theorem mcons_mcat_head {m : Matcher} {ms : List Matcher} (h : MCons m) :
    MCons (mcat (m :: ms)) := by
  simp only [mcat, List.foldl_cons]
  exact mcons_foldl ms (mseq mEps m) (mcons_mseq_right h)

theorem mcons_rep1Aux {m : Matcher} (hm : MCons m) :
    ∀ fuel, MCons (rep1Aux m fuel) := by
  intro fuel
  induction fuel with
  | zero => intro s a r h; simp [rep1Aux] at h
  | succ n _ =>
    intro s a r h
    simp only [rep1Aux] at h
    split at h
    · exact Option.noConfusion h
    · rename_i a1 r1 e1
      split at h
      · rename_i b r' e2
        simp only [Option.some.injEq, Prod.mk.injEq] at h
        rw [← h.1]
        exact fun hn => (hm s a1 r1 e1) (List.append_eq_nil.mp hn).1
      · simp only [Option.some.injEq, Prod.mk.injEq] at h
        rw [← h.1]
        exact hm s a1 r1 e1

theorem mcons_rep1 {m : Matcher} (hm : MCons m) : MCons (rep1 m) := by
  intro s a r h
  exact mcons_rep1Aux hm (s.length + 1) s a r h

theorem mcons_numDot : MCons numDot := mcons_mseq_left (mcons_many1 isDigitC)

theorem msound_startMatcher (p : StartPat) : MSound (startMatcher p) := by
  cases p <;> first
    | exact msound_rep1 msound_numDot
    | · apply msound_mcat
        intro m hm
        fin_cases hm <;> first
          | exact msound_many1 _
          | exact msound_charTok _
          | exact msound_cls1 _

theorem mcons_startMatcher (p : StartPat) : MCons (startMatcher p) := by
  cases p <;> first
    | exact mcons_rep1 mcons_numDot
    | exact mcons_mcat_head (mcons_many1 _)
    | exact mcons_mcat_head (mcons_charTok _)

theorem startAlt_sound {p : StartPat} {s m : List Char} (h : startAlt p s = some m) :
    (∃ r, s = m ++ r) ∧ m ≠ [] := by
  simp only [startAlt] at h
  split at h
  · rename_i a r e1
    simp only [Option.some.injEq] at h
    rw [← h]
    exact ⟨⟨r, msound_startMatcher p s a r e1⟩, mcons_startMatcher p s a r e1⟩
  · rename_i e1
    split at h
    · rename_i c t
      by_cases hc : c = '«'
      · rw [if_pos hc] at h
        split at h
        · rename_i a r e2
          simp only [Option.some.injEq] at h
          rw [← h, hc]
          refine ⟨⟨r, ?_⟩, by simp⟩
          rw [msound_startMatcher p t a r e2]
          rfl
        · exact Option.noConfusion h
      · rw [if_neg hc] at h
        exact Option.noConfusion h
    · exact Option.noConfusion h

theorem firstStart_sound : ∀ (ps : List StartPat) (s m : List Char),
    firstStart ps s = some m → (∃ r, s = m ++ r) ∧ m ≠ [] := by
  intro ps
  induction ps with
  | nil => intro s m h; simp [firstStart] at h
  | cons p ps ih =>
    intro s m h
    simp only [firstStart] at h
    split at h
    · rename_i m' e
      simp only [Option.some.injEq] at h
      rw [← h]
      exact startAlt_sound e
    · exact ih s m h

/-- A successful starting-marker match returns a nonempty prefix of the
input. -/
theorem startingMatch_sound {s m : List Char} (h : startingMatch s = some m) :
    (∃ r, s = m ++ r) ∧ m ≠ [] :=
  firstStart_sound STARTING_MARKER_PATTERNS s m h

/-! ### Lemmas about `replaceAll`, `occursIn` and `pyStrip`. -/

theorem replaceAllAux_no_occ {pat : List Char} :
    ∀ (fuel : Nat) (s : List Char), occursIn pat s = false →
      replaceAllAux pat fuel s = s := by
  intro fuel
  induction fuel with
  | zero => intro s _; rfl
  | succ n ih =>
    intro s hocc
    cases s with
    | nil => rfl
    | cons c rest =>
      simp only [occursIn, Bool.or_eq_false_iff] at hocc
      show (if pat ≠ [] ∧ pat.isPrefixOf (c :: rest) = true then
          replaceAllAux pat n (List.drop (pat.length - 1) rest)
        else c :: replaceAllAux pat n rest) = c :: rest
      rw [if_neg (by simp [hocc.1]), ih rest hocc.2]

theorem replaceAll_strip_lead {pat rest : List Char} (hne : pat ≠ [])
    (hocc : occursIn pat rest = false) : replaceAll pat (pat ++ rest) = rest := by
  cases pat with
  | nil => exact absurd rfl hne
  | cons p ps =>
    have hpre : (p :: ps).isPrefixOf (p :: (ps ++ rest)) = true :=
      List.isPrefixOf_iff_prefix.mpr ⟨rest, by rw [List.cons_append]⟩
    show replaceAllAux (p :: ps) ((p :: ps ++ rest).length) (p :: ps ++ rest) = rest
    rw [List.cons_append, List.length_cons]
    show (if (p :: ps) ≠ [] ∧ (p :: ps).isPrefixOf (p :: (ps ++ rest)) = true then
        replaceAllAux (p :: ps) (ps ++ rest).length
          (List.drop ((p :: ps).length - 1) (ps ++ rest))
      else p :: replaceAllAux (p :: ps) (ps ++ rest).length (ps ++ rest)) = rest
    rw [if_pos ⟨by simp, hpre⟩, List.length_cons, Nat.add_sub_cancel, List.drop_left]
    exact replaceAllAux_no_occ _ rest hocc

theorem occursIn_of_parts {pat v : List Char} (hne : pat ≠ []) :
    ∀ u : List Char, occursIn pat (u ++ (pat ++ v)) = true := by
  intro u
  induction u with
  | nil =>
    rw [List.nil_append]
    cases pat with
    | nil => exact absurd rfl hne
    | cons p ps =>
      have hpre : (p :: ps).isPrefixOf (p :: (ps ++ v)) = true :=
        List.isPrefixOf_iff_prefix.mpr ⟨v, by rw [List.cons_append]⟩
      rw [List.cons_append]
      show ((p :: ps).isPrefixOf (p :: (ps ++ v)) || occursIn (p :: ps) (ps ++ v)) = true
      rw [hpre, Bool.true_or]
  | cons c u' ih =>
    rw [List.cons_append]
    show (pat.isPrefixOf (c :: (u' ++ (pat ++ v))) || occursIn pat (u' ++ (pat ++ v))) = true
    rw [ih, Bool.or_true]

theorem occursIn_of_mid {pat s : List Char} (hne : pat ≠ []) (h : pat <:+: s) :
    occursIn pat s = true := by
  obtain ⟨u, v, huv⟩ := h
  rw [← huv, List.append_assoc]
  exact occursIn_of_parts hne u

theorem pyStrip_mid (s : List Char) : pyStrip s <:+: s := by
  have h1 : s.dropWhile isSpaceC <:+ s := List.dropWhile_suffix _
  have h2 : ((s.dropWhile isSpaceC).reverse.dropWhile isSpaceC).reverse <+:
      (s.dropWhile isSpaceC).reverse.reverse :=
    List.reverse_prefix.mpr (List.dropWhile_suffix _)
  rw [List.reverse_reverse] at h2
  exact h2.isInfix.trans h1.isInfix

theorem not_isPrefixOf_pyStrip {m r : List Char} (hne : m ≠ [])
    (hocc : occursIn m r = false) : m.isPrefixOf (pyStrip r) = false := by
  cases hp : m.isPrefixOf (pyStrip r) with
  | false => rfl
  | true =>
    have h1 : m <+: pyStrip r := List.isPrefixOf_iff_prefix.mp hp
    have h2 : m <:+: r := h1.isInfix.trans (pyStrip_mid r)
    rw [occursIn_of_mid hne h2] at hocc
    exact absurd hocc (by simp)

/-! ### Unfolding lemmas for the classifier and the walker. -/

theorem classify_isolated {t : List Char} (h : isolatedMatch t = true) :
    classifyMarker t = .isolated t := by
  simp [classifyMarker, h]

theorem classify_starting {t m : List Char} (hi : isolatedMatch t = false)
    (hs : startingMatch t = some m) :
    classifyMarker t = .starting m (pyStrip (replaceAll m t)) := by
  simp [classifyMarker, hi, hs]

theorem classify_noMarker {t : List Char} (hi : isolatedMatch t = false)
    (hs : startingMatch t = none) : classifyMarker t = .noMarker t := by
  simp [classifyMarker, hi, hs]

theorem stepBlock_normal (doc : String) (c0 : List Char)
    (hc : c0 = "normal".data ∨ c0 = "oj-normal".data) :
    ∀ (st : WalkState) (raw : List Char) (cs : List (List Char)),
      stepBlock doc st ⟨.pylist (c0 :: cs), raw⟩ = .ok (stepNormal doc st (normText raw)) := by
  rcases hc with rfl | rfl <;> intro st raw cs <;> rfl

theorem stepNormal_isolated {doc : String} {st : WalkState} {t : List Char}
    (h : isolatedMatch t = true) :
    stepNormal doc st t = { st with ref := t, prevMarker := true } := by
  simp only [stepNormal, classify_isolated h]

theorem stepNormal_starting {doc : String} {st : WalkState} {t m : List Char}
    (hi : isolatedMatch t = false) (hs : startingMatch t = some m) :
    stepNormal doc st t =
      ⟨st.heading, st.section_, st.article, st.article_subtitle, m, false,
        st.records ++ [⟨doc, st.heading, st.section_, st.article, st.article_subtitle,
          pyStrip (replaceAll m t), m⟩]⟩ := by
  simp only [stepNormal, classify_starting hi hs]

theorem stepNormal_noMarker {doc : String} {st : WalkState} {t : List Char}
    (hi : isolatedMatch t = false) (hs : startingMatch t = none) :
    stepNormal doc st t =
      ⟨st.heading, st.section_, st.article, st.article_subtitle,
        (if st.prevMarker then st.ref else []), false,
        st.records ++ [⟨doc, st.heading, st.section_, st.article, st.article_subtitle,
          t, (if st.prevMarker then st.ref else [])⟩]⟩ := by
  simp only [stepNormal, classify_noMarker hi hs]

/-- Context preservation of the body-text branch: no hierarchical-context
field is mutated there. -/
theorem stepNormal_ctx (doc : String) (st : WalkState) (t : List Char) :
    (stepNormal doc st t).heading = st.heading ∧
    (stepNormal doc st t).section_ = st.section_ ∧
    (stepNormal doc st t).article = st.article ∧
    (stepNormal doc st t).article_subtitle = st.article_subtitle := by
  cases e : classifyMarker t <;> simp [stepNormal, e]

/-- Running the walker over a list split: once the first part succeeds, the
second part continues from its final state. -/
theorem walkBlocks_append_ok (doc : String) (ys : List Block) :
    ∀ (xs : List Block) (st st1 : WalkState), walkBlocks doc st xs = .ok st1 →
      walkBlocks doc st (xs ++ ys) = walkBlocks doc st1 ys := by
  intro xs
  induction xs with
  | nil =>
    intro st st1 h
    simp only [walkBlocks, Except.ok.injEq] at h
    rw [List.nil_append, h]
  | cons b xs ih =>
    intro st st1 h
    simp only [walkBlocks] at h
    split at h
    · exact Except.noConfusion h
    · rename_i st' e
      rw [List.cons_append]
      show (match stepBlock doc st b with
        | .error e => .error e
        | .ok st2 => walkBlocks doc st2 (xs ++ ys)) = walkBlocks doc st1 ys
      rw [e]
      exact ih st' st1 h

/-- A block whose class head is ignorable or an article-subtitle class: the
step succeeds and leaves everything except the subtitle unchanged. -/
def midOk (b : Block) : Prop :=
  ∃ c0 cs, b.cls = .pylist (c0 :: cs) ∧
    (c0 ∈ css_classes_to_ignore ∨ c0 = "sti-art".data ∨ c0 = "oj-sti-art".data)

theorem midStep (doc : String) (st : WalkState) (b : Block) (hb : midOk b) :
    ∃ st', stepBlock doc st b = .ok st' ∧ st'.heading = st.heading ∧
      st'.section_ = st.section_ ∧ st'.article = st.article ∧ st'.ref = st.ref ∧
      st'.prevMarker = st.prevMarker ∧ st'.records = st.records := by
  obtain ⟨c0, cs, hcls, hcase⟩ := hb
  obtain ⟨bcls, braw⟩ := b
  simp only at hcls
  subst hcls
  rcases hcase with hmem | rfl | rfl
  · simp only [css_classes_to_ignore, List.mem_cons, List.not_mem_nil, or_false] at hmem
    rcases hmem with rfl | rfl | rfl | rfl <;>
      exact ⟨st, rfl, rfl, rfl, rfl, rfl, rfl, rfl⟩
  · exact ⟨{ st with article_subtitle := normText braw }, rfl, rfl, rfl, rfl, rfl, rfl, rfl⟩
  · exact ⟨{ st with article_subtitle := normText braw }, rfl, rfl, rfl, rfl, rfl, rfl, rfl⟩

theorem walk_mids (doc : String) : ∀ (mids : List Block), (∀ b ∈ mids, midOk b) →
    ∀ st : WalkState, ∃ st', walkBlocks doc st mids = .ok st' ∧
      st'.heading = st.heading ∧ st'.section_ = st.section_ ∧ st'.article = st.article ∧
      st'.ref = st.ref ∧ st'.prevMarker = st.prevMarker ∧ st'.records = st.records := by
  intro mids
  induction mids with
  | nil => intro _ st; exact ⟨st, rfl, rfl, rfl, rfl, rfl, rfl, rfl⟩
  | cons b mids ih =>
    intro hmid st
    obtain ⟨st1, he, h1, h2, h3, h4, h5, h6⟩ := midStep doc st b (hmid b (by simp))
    obtain ⟨st2, he2, g1, g2, g3, g4, g5, g6⟩ :=
      ih (fun b' hb' => hmid b' (by simp [hb'])) st1
    refine ⟨st2, ?_, ?_, ?_, ?_, ?_, ?_, ?_⟩
    · show (match stepBlock doc st b with
        | Except.error e => Except.error e
        | Except.ok st' => walkBlocks doc st' mids) = Except.ok st2
      rw [he]
      exact he2
    · rw [g1, h1]
    · rw [g2, h2]
    · rw [g3, h3]
    · rw [g4, h4]
    · rw [g5, h5]
    · rw [g6, h6]

/-! ### Full-match languages of the starting-marker sub-patterns, and the
most-specific-first ordering of the list. -/

/-- A starting-marker sub-pattern matches a string in full (the whole string
is consumed). -/
def startFull (p : StartPat) (s : List Char) : Bool :=
  match startMatcher p s with
  | some (_, []) => true
  | _ => false

/-- Sub-pattern `q` (the more general form) fully matches a proper prefix of
a string that sub-pattern `p` (the more specific form) matches in full. -/
def StartShadows (p q : StartPat) : Prop :=
  ∃ s t : List Char, startFull p s = true ∧ startFull q t = true ∧ t <+: s ∧ t ≠ s

/-- The single-character class `[c]` as a Boolean predicate. -/
def litC (a : Char) : Char → Bool := fun c => c = a

/-- Strings of the language `([0-9]+\.)+`. -/
inductive NumDotSeq : List Char → Prop where
  | last (d : List Char) : d ≠ [] → d.all isDigitC = true → NumDotSeq (d ++ ['.'])
  | more (d rest : List Char) : d ≠ [] → d.all isDigitC = true → NumDotSeq rest →
      NumDotSeq (d ++ '.' :: rest)

/-- Normal form of a digit-led full match: a nonempty digit run, then a
non-digit character of class `xb`, then a remainder. -/
def DV (xb : Char → Bool) (s : List Char) : Prop :=
  ∃ d x u, d ≠ [] ∧ d.all isDigitC = true ∧ isDigitC x = false ∧ xb x = true ∧
    s = d ++ x :: u

/-- Class of the first character of every full match of a sub-pattern. -/
def headCls : StartPat → Char → Bool
  | .parenNum => litC '('
  | .parenAlpha => litC '('
  | .alphaParen => isAlphaC
  | .alphaDot => isAlphaC
  | _ => isDigitC

/-- For the digit-led sub-patterns: the class of the character that follows
the initial digit run of every full match. -/
def afterCls : StartPat → Option (Char → Bool)
  | .nDotNDashADot => some (litC '.')
  | .nDotNDashAParen => some (litC '.')
  | .nDashADot => some (litC '-')
  | .nDashAParen => some (litC '-')
  | .nDashASpace => some (litC '-')
  | .nADotSpace => some isAlphaC
  | .nDotRep => some (litC '.')
  | .parenNum => none
  | .numParen => some (litC ')')
  | .parenAlpha => none
  | .alphaParen => none
  | .nDot => some (litC '.')
  | .nSpace => some isSpaceC
  | .alphaDot => none

theorem alpha_not_digit {c : Char} (h : isAlphaC c = true) : isDigitC c = false := by
  cases hd : isDigitC c with
  | false => rfl
  | true =>
    exfalso
    simp only [isDigitC, Char.isDigit, Bool.and_eq_true, decide_eq_true_eq] at hd
    simp only [isAlphaC, Char.isAlpha, Char.isUpper, Char.isLower, Bool.or_eq_true,
      Bool.and_eq_true, decide_eq_true_eq] at h
    rcases h with ⟨h3, _⟩ | ⟨h3, _⟩
    · exact absurd (UInt32.le_trans h3 hd.2) (by decide)
    · exact absurd (UInt32.le_trans h3 hd.2) (by decide)

theorem space_not_digit {c : Char} (h : isSpaceC c = true) : isDigitC c = false := by
  simp only [isSpaceC, Bool.or_eq_true, decide_eq_true_eq] at h
  rcases h with ((((((rfl | rfl) | rfl) | rfl) | rfl) | rfl) | rfl) <;> decide

theorem disj_litC_left {a : Char} {f : Char → Bool} (ha : f a = false) :
    ∀ c, litC a c = true → f c = true → False := by
  intro c h1 h2
  simp only [litC, decide_eq_true_eq] at h1
  subst h1
  rw [ha] at h2
  exact Bool.noConfusion h2

theorem disj_litC_right {a : Char} {f : Char → Bool} (ha : f a = false) :
    ∀ c, f c = true → litC a c = true → False :=
  fun c h1 h2 => disj_litC_left ha c h2 h1

theorem disj_digit_alpha : ∀ c, isDigitC c = true → isAlphaC c = true → False := by
  intro c h1 h2
  rw [alpha_not_digit h2] at h1
  exact Bool.noConfusion h1

theorem disj_alpha_digit : ∀ c, isAlphaC c = true → isDigitC c = true → False :=
  fun c h1 h2 => disj_digit_alpha c h2 h1

theorem disj_alpha_space : ∀ c, isAlphaC c = true → isSpaceC c = true → False := by
  intro c h1 h2
  simp only [isSpaceC, Bool.or_eq_true, decide_eq_true_eq] at h2
  rcases h2 with ((((((rfl | rfl) | rfl) | rfl) | rfl) | rfl) | rfl) <;>
    exact absurd h1 (by decide)

theorem disj_space_alpha : ∀ c, isSpaceC c = true → isAlphaC c = true → False :=
  fun c h1 h2 => disj_alpha_space c h2 h1

/-- Alignment of two runs of the same character class against a common
prefix: the runs coincide, the terminating characters coincide, and the
remainders stay in the prefix relation. -/
theorem run_align {p : Char → Bool} : ∀ (d1 : List Char) {d2 : List Char} {x y : Char}
    {u v : List Char}, d1.all p = true → d2.all p = true → p x = false → p y = false →
    (d1 ++ x :: u) <+: (d2 ++ y :: v) → d1 = d2 ∧ x = y ∧ u <+: v := by
  intro d1
  induction d1 with
  | nil =>
    intro d2 x y u v _ h2 hx hy hpre
    cases d2 with
    | nil =>
      simp only [List.nil_append] at hpre
      obtain ⟨hxy, huv⟩ := List.cons_prefix_cons.mp hpre
      exact ⟨rfl, hxy, huv⟩
    | cons c d2' =>
      simp only [List.nil_append, List.cons_append] at hpre
      obtain ⟨hxc, _⟩ := List.cons_prefix_cons.mp hpre
      simp only [List.all_cons, Bool.and_eq_true] at h2
      rw [hxc, h2.1] at hx
      exact Bool.noConfusion hx
  | cons c d1' ih =>
    intro d2 x y u v h1 h2 hx hy hpre
    simp only [List.all_cons, Bool.and_eq_true] at h1
    cases d2 with
    | nil =>
      simp only [List.cons_append, List.nil_append] at hpre
      obtain ⟨hcy, _⟩ := List.cons_prefix_cons.mp hpre
      rw [← hcy, h1.1] at hy
      exact Bool.noConfusion hy
    | cons c2 d2' =>
      simp only [List.cons_append] at hpre
      obtain ⟨hcc, hrest⟩ := List.cons_prefix_cons.mp hpre
      simp only [List.all_cons, Bool.and_eq_true] at h2
      obtain ⟨hde, hxy, huv⟩ := ih h1.2 h2.2 hx hy hrest
      exact ⟨by rw [hcc, hde], hxy, huv⟩

/-! ### Shape extraction from successful matcher runs. -/

theorem mseq_shape {m1 m2 : Matcher} {s a r : List Char} (h : mseq m1 m2 s = some (a, r)) :
    ∃ a1 r1 a2, m1 s = some (a1, r1) ∧ m2 r1 = some (a2, r) ∧ a = a1 ++ a2 := by
  simp only [mseq] at h
  split at h
  · exact Option.noConfusion h
  · rename_i a1 r1 e1
    split at h
    · exact Option.noConfusion h
    · rename_i a2 r2 e2
      simp only [Option.some.injEq, Prod.mk.injEq] at h
      exact ⟨a1, r1, a2, e1, by rw [h.2] at e2; exact e2, h.1.symm⟩

theorem many1_shape {p : Char → Bool} {s a r : List Char} (h : many1 p s = some (a, r)) :
    a ≠ [] ∧ a.all p = true := by
  by_cases he : s.takeWhile p = []
  · simp [many1, he] at h
  · simp only [many1, if_neg he, Option.some.injEq, Prod.mk.injEq] at h
    rw [← h.1]
    exact ⟨he, List.all_takeWhile⟩

theorem charTok_shape {c : Char} {s a r : List Char} (h : charTok c s = some (a, r)) :
    a = [c] := by
  cases s with
  | nil => simp [charTok] at h
  | cons c' rest =>
    by_cases hc : c' = c
    · simp only [charTok, if_pos hc, Option.some.injEq, Prod.mk.injEq] at h
      rw [← h.1, hc]
    · simp [charTok, hc] at h

theorem cls1_shape {p : Char → Bool} {s a r : List Char} (h : cls1 p s = some (a, r)) :
    ∃ ch, p ch = true ∧ a = [ch] := by
  cases s with
  | nil => simp [cls1] at h
  | cons c rest =>
    by_cases hc : p c = true
    · simp only [cls1, if_pos hc, Option.some.injEq, Prod.mk.injEq] at h
      exact ⟨c, hc, h.1.symm⟩
    · simp [cls1, hc] at h

theorem mcat2_shape {m1 m2 : Matcher} {s a r : List Char}
    (h : mcat [m1, m2] s = some (a, r)) :
    ∃ a1 r1 a2, m1 s = some (a1, r1) ∧ m2 r1 = some (a2, r) ∧ a = a1 ++ a2 := by
  obtain ⟨aX, rX, a2, hX, h2, ha⟩ := mseq_shape h
  obtain ⟨a0, r0, a1, h0, h1, ha1⟩ := mseq_shape hX
  simp only [mEps, Option.some.injEq, Prod.mk.injEq] at h0
  refine ⟨a1, rX, a2, ?_, h2, ?_⟩
  · rw [← h0.2] at h1; exact h1
  · rw [ha, ha1, ← h0.1, List.nil_append]

theorem mcat3_shape {m1 m2 m3 : Matcher} {s a r : List Char}
    (h : mcat [m1, m2, m3] s = some (a, r)) :
    ∃ a1 r1 a2 r2 a3, m1 s = some (a1, r1) ∧ m2 r1 = some (a2, r2) ∧
      m3 r2 = some (a3, r) ∧ a = a1 ++ (a2 ++ a3) := by
  obtain ⟨aX, rX, a3, hX, h3, ha⟩ := mseq_shape h
  obtain ⟨a1, r1, a2, h1, h2, ha2⟩ := mcat2_shape hX
  exact ⟨a1, r1, a2, rX, a3, h1, h2, h3, by rw [ha, ha2, List.append_assoc]⟩

theorem mcat4_shape {m1 m2 m3 m4 : Matcher} {s a r : List Char}
    (h : mcat [m1, m2, m3, m4] s = some (a, r)) :
    ∃ a1 r1 a2 r2 a3 r3 a4, m1 s = some (a1, r1) ∧ m2 r1 = some (a2, r2) ∧
      m3 r2 = some (a3, r3) ∧ m4 r3 = some (a4, r) ∧ a = a1 ++ (a2 ++ (a3 ++ a4)) := by
  obtain ⟨aX, rX, a4, hX, h4, ha⟩ := mseq_shape h
  obtain ⟨a1, r1, a2, r2, a3, h1, h2, h3, ha3⟩ := mcat3_shape hX
  refine ⟨a1, r1, a2, r2, a3, rX, a4, h1, h2, h3, h4, ?_⟩
  rw [ha, ha3, List.append_assoc, List.append_assoc]

theorem mcat6_shape {m1 m2 m3 m4 m5 m6 : Matcher} {s a r : List Char}
    (h : mcat [m1, m2, m3, m4, m5, m6] s = some (a, r)) :
    ∃ a1 r1 a2 r2 a3 r3 a4 r4 a5 r5 a6, m1 s = some (a1, r1) ∧ m2 r1 = some (a2, r2) ∧
      m3 r2 = some (a3, r3) ∧ m4 r3 = some (a4, r4) ∧ m5 r4 = some (a5, r5) ∧
      m6 r5 = some (a6, r) ∧ a = a1 ++ (a2 ++ (a3 ++ (a4 ++ (a5 ++ a6)))) := by
  obtain ⟨aX, rX, a6, hX, h6, ha⟩ := mseq_shape h
  obtain ⟨aY, rY, a5, hY, h5, ha5⟩ := mseq_shape hX
  obtain ⟨a1, r1, a2, r2, a3, r3, a4, h1, h2, h3, h4, ha4⟩ := mcat4_shape hY
  refine ⟨a1, r1, a2, r2, a3, r3, a4, rY, a5, rX, a6, h1, h2, h3, h4, h5, h6, ?_⟩
  rw [ha, ha5, ha4]
  simp only [List.append_assoc]

theorem startFull_elim {p : StartPat} {s : List Char} (h : startFull p s = true) :
    startMatcher p s = some (s, []) := by
  simp only [startFull] at h
  split at h
  · rename_i a heq
    have hs := msound_startMatcher p s a [] heq
    rw [List.append_nil] at hs
    rw [← hs] at heq
    exact heq
  · exact Bool.noConfusion h

theorem rep1Aux_numDotSeq : ∀ (fuel : Nat) (s a r : List Char),
    rep1Aux numDot fuel s = some (a, r) → NumDotSeq a := by
  intro fuel
  induction fuel with
  | zero => intro s a r h; simp [rep1Aux] at h
  | succ n ih =>
    intro s a r h
    simp only [rep1Aux] at h
    split at h
    · exact Option.noConfusion h
    · rename_i a1 r1 e1
      obtain ⟨d, rd, adot, hd, hdot, ha1⟩ := mseq_shape e1
      obtain ⟨hdne, hdall⟩ := many1_shape hd
      have hadot : adot = ['.'] := charTok_shape hdot
      split at h
      · rename_i b r' e2
        simp only [Option.some.injEq, Prod.mk.injEq] at h
        rw [← h.1, ha1, hadot, List.append_assoc]
        exact NumDotSeq.more d b hdne hdall (ih r1 b r' e2)
      · simp only [Option.some.injEq, Prod.mk.injEq] at h
        rw [← h.1, ha1, hadot]
        exact NumDotSeq.last d hdne hdall

theorem numDotSeq_shape {w : List Char} (h : NumDotSeq w) :
    ∃ d w', d ≠ [] ∧ d.all isDigitC = true ∧ w = d ++ '.' :: w' ∧
      (w' = [] ∨ NumDotSeq w') := by
  cases h with
  | last d hne hall => exact ⟨d, [], hne, hall, rfl, Or.inl rfl⟩
  | more d rest hne hall hr => exact ⟨d, rest, hne, hall, rfl, Or.inr hr⟩

/-- Splitting a nonempty run: its head satisfies the class. -/
theorem head_of_run {p : Char → Bool} {d : List Char} (u : List Char) (hne : d ≠ [])
    (hall : d.all p = true) : ∃ c rest, d ++ u = c :: rest ∧ p c = true := by
  cases d with
  | nil => exact absurd rfl hne
  | cons c d' =>
    simp only [List.all_cons, Bool.and_eq_true] at hall
    exact ⟨c, d' ++ u, rfl, hall.1⟩

theorem shape_nDotNDashADot {s : List Char} (h : startFull .nDotNDashADot s = true) :
    ∃ d1 d2 a, d1 ≠ [] ∧ d1.all isDigitC = true ∧ d2 ≠ [] ∧ d2.all isDigitC = true ∧
      isAlphaC a = true ∧ s = d1 ++ '.' :: (d2 ++ '-' :: (a :: ['.'])) := by
  have h' := startFull_elim h
  obtain ⟨a1, r1, a2, r2, a3, r3, a4, r4, a5, r5, a6, h1, h2, h3, h4, h5, h6, ha⟩ :=
    mcat6_shape h'
  obtain ⟨hne1, hall1⟩ := many1_shape h1
  obtain ⟨hne3, hall3⟩ := many1_shape h3
  obtain ⟨ch, hch, ha5⟩ := cls1_shape h5
  refine ⟨a1, a3, ch, hne1, hall1, hne3, hall3, hch, ?_⟩
  rw [ha, charTok_shape h2, charTok_shape h4, ha5, charTok_shape h6]
  rfl

theorem shape_nDotNDashAParen {s : List Char} (h : startFull .nDotNDashAParen s = true) :
    ∃ d1 d2 a, d1 ≠ [] ∧ d1.all isDigitC = true ∧ d2 ≠ [] ∧ d2.all isDigitC = true ∧
      isAlphaC a = true ∧ s = d1 ++ '.' :: (d2 ++ '-' :: (a :: [')'])) := by
  have h' := startFull_elim h
  obtain ⟨a1, r1, a2, r2, a3, r3, a4, r4, a5, r5, a6, h1, h2, h3, h4, h5, h6, ha⟩ :=
    mcat6_shape h'
  obtain ⟨hne1, hall1⟩ := many1_shape h1
  obtain ⟨hne3, hall3⟩ := many1_shape h3
  obtain ⟨ch, hch, ha5⟩ := cls1_shape h5
  refine ⟨a1, a3, ch, hne1, hall1, hne3, hall3, hch, ?_⟩
  rw [ha, charTok_shape h2, charTok_shape h4, ha5, charTok_shape h6]
  rfl

theorem shape_nDashADot {s : List Char} (h : startFull .nDashADot s = true) :
    ∃ d a, d ≠ [] ∧ d.all isDigitC = true ∧ isAlphaC a = true ∧
      s = d ++ '-' :: (a :: ['.']) := by
  have h' := startFull_elim h
  obtain ⟨a1, r1, a2, r2, a3, r3, a4, h1, h2, h3, h4, ha⟩ := mcat4_shape h'
  obtain ⟨hne, hall⟩ := many1_shape h1
  obtain ⟨ch, hch, ha3⟩ := cls1_shape h3
  refine ⟨a1, ch, hne, hall, hch, ?_⟩
  rw [ha, charTok_shape h2, ha3, charTok_shape h4]
  rfl

theorem shape_nDashAParen {s : List Char} (h : startFull .nDashAParen s = true) :
    ∃ d a, d ≠ [] ∧ d.all isDigitC = true ∧ isAlphaC a = true ∧
      s = d ++ '-' :: (a :: [')']) := by
  have h' := startFull_elim h
  obtain ⟨a1, r1, a2, r2, a3, r3, a4, h1, h2, h3, h4, ha⟩ := mcat4_shape h'
  obtain ⟨hne, hall⟩ := many1_shape h1
  obtain ⟨ch, hch, ha3⟩ := cls1_shape h3
  refine ⟨a1, ch, hne, hall, hch, ?_⟩
  rw [ha, charTok_shape h2, ha3, charTok_shape h4]
  rfl

theorem shape_nDashASpace {s : List Char} (h : startFull .nDashASpace s = true) :
    ∃ d a sp, d ≠ [] ∧ d.all isDigitC = true ∧ isAlphaC a = true ∧ sp ≠ [] ∧
      sp.all isSpaceC = true ∧ s = d ++ '-' :: (a :: sp) := by
  have h' := startFull_elim h
  obtain ⟨a1, r1, a2, r2, a3, r3, a4, h1, h2, h3, h4, ha⟩ := mcat4_shape h'
  obtain ⟨hne, hall⟩ := many1_shape h1
  obtain ⟨ch, hch, ha3⟩ := cls1_shape h3
  obtain ⟨hne4, hall4⟩ := many1_shape h4
  refine ⟨a1, ch, a4, hne, hall, hch, hne4, hall4, ?_⟩
  rw [ha, charTok_shape h2, ha3]
  rfl

theorem shape_nADotSpace {s : List Char} (h : startFull .nADotSpace s = true) :
    ∃ d a sp, d ≠ [] ∧ d.all isDigitC = true ∧ isAlphaC a = true ∧ sp ≠ [] ∧
      sp.all isSpaceC = true ∧ s = d ++ a :: ('.' :: sp) := by
  have h' := startFull_elim h
  obtain ⟨a1, r1, a2, r2, a3, r3, a4, h1, h2, h3, h4, ha⟩ := mcat4_shape h'
  obtain ⟨hne, hall⟩ := many1_shape h1
  obtain ⟨ch, hch, ha2⟩ := cls1_shape h2
  obtain ⟨hne4, hall4⟩ := many1_shape h4
  refine ⟨a1, ch, a4, hne, hall, hch, hne4, hall4, ?_⟩
  rw [ha, ha2, charTok_shape h3]
  rfl

theorem shape_nDotRep {s : List Char} (h : startFull .nDotRep s = true) :
    NumDotSeq s := by
  have h' := startFull_elim h
  exact rep1Aux_numDotSeq (s.length + 1) s s [] h'

theorem shape_parenNum {s : List Char} (h : startFull .parenNum s = true) :
    ∃ d, d ≠ [] ∧ d.all isDigitC = true ∧ s = '(' :: (d ++ [')']) := by
  have h' := startFull_elim h
  obtain ⟨a1, r1, a2, r2, a3, h1, h2, h3, ha⟩ := mcat3_shape h'
  obtain ⟨hne, hall⟩ := many1_shape h2
  refine ⟨a2, hne, hall, ?_⟩
  rw [ha, charTok_shape h1, charTok_shape h3]
  rfl

theorem shape_numParen {s : List Char} (h : startFull .numParen s = true) :
    ∃ d, d ≠ [] ∧ d.all isDigitC = true ∧ s = d ++ [')'] := by
  have h' := startFull_elim h
  obtain ⟨a1, r1, a2, h1, h2, ha⟩ := mcat2_shape h'
  obtain ⟨hne, hall⟩ := many1_shape h1
  refine ⟨a1, hne, hall, ?_⟩
  rw [ha, charTok_shape h2]

theorem shape_parenAlpha {s : List Char} (h : startFull .parenAlpha s = true) :
    ∃ as, as ≠ [] ∧ as.all isAlphaC = true ∧ s = '(' :: (as ++ [')']) := by
  have h' := startFull_elim h
  obtain ⟨a1, r1, a2, r2, a3, h1, h2, h3, ha⟩ := mcat3_shape h'
  obtain ⟨hne, hall⟩ := many1_shape h2
  refine ⟨a2, hne, hall, ?_⟩
  rw [ha, charTok_shape h1, charTok_shape h3]
  rfl

theorem shape_alphaParen {s : List Char} (h : startFull .alphaParen s = true) :
    ∃ as, as ≠ [] ∧ as.all isAlphaC = true ∧ s = as ++ [')'] := by
  have h' := startFull_elim h
  obtain ⟨a1, r1, a2, h1, h2, ha⟩ := mcat2_shape h'
  obtain ⟨hne, hall⟩ := many1_shape h1
  refine ⟨a1, hne, hall, ?_⟩
  rw [ha, charTok_shape h2]

theorem shape_nDot {s : List Char} (h : startFull .nDot s = true) :
    ∃ d, d ≠ [] ∧ d.all isDigitC = true ∧ s = d ++ ['.'] := by
  have h' := startFull_elim h
  obtain ⟨a1, r1, a2, h1, h2, ha⟩ := mcat2_shape h'
  obtain ⟨hne, hall⟩ := many1_shape h1
  refine ⟨a1, hne, hall, ?_⟩
  rw [ha, charTok_shape h2]

theorem shape_nSpace {s : List Char} (h : startFull .nSpace s = true) :
    ∃ d sp, d ≠ [] ∧ d.all isDigitC = true ∧ sp ≠ [] ∧ sp.all isSpaceC = true ∧
      s = d ++ sp := by
  have h' := startFull_elim h
  obtain ⟨a1, r1, a2, h1, h2, ha⟩ := mcat2_shape h'
  obtain ⟨hne1, hall1⟩ := many1_shape h1
  obtain ⟨hne2, hall2⟩ := many1_shape h2
  exact ⟨a1, a2, hne1, hall1, hne2, hall2, ha⟩

theorem shape_alphaDot {s : List Char} (h : startFull .alphaDot s = true) :
    ∃ as, as ≠ [] ∧ as.all isAlphaC = true ∧ s = as ++ ['.'] := by
  have h' := startFull_elim h
  obtain ⟨a1, r1, a2, h1, h2, ha⟩ := mcat2_shape h'
  obtain ⟨hne, hall⟩ := many1_shape h1
  refine ⟨a1, hne, hall, ?_⟩
  rw [ha, charTok_shape h2]

/-- Every full match starts with a character of the pattern's head class. -/
theorem fc_of_full : ∀ (p : StartPat) (s : List Char), startFull p s = true →
    ∃ c rest, s = c :: rest ∧ headCls p c = true := by
  intro p s h
  cases p with
  | nDotNDashADot =>
    obtain ⟨d1, d2, a, hne, hall, _, _, _, rfl⟩ := shape_nDotNDashADot h
    exact head_of_run _ hne hall
  | nDotNDashAParen =>
    obtain ⟨d1, d2, a, hne, hall, _, _, _, rfl⟩ := shape_nDotNDashAParen h
    exact head_of_run _ hne hall
  | nDashADot =>
    obtain ⟨d, a, hne, hall, _, rfl⟩ := shape_nDashADot h
    exact head_of_run _ hne hall
  | nDashAParen =>
    obtain ⟨d, a, hne, hall, _, rfl⟩ := shape_nDashAParen h
    exact head_of_run _ hne hall
  | nDashASpace =>
    obtain ⟨d, a, sp, hne, hall, _, _, _, rfl⟩ := shape_nDashASpace h
    exact head_of_run _ hne hall
  | nADotSpace =>
    obtain ⟨d, a, sp, hne, hall, _, _, _, rfl⟩ := shape_nADotSpace h
    exact head_of_run _ hne hall
  | nDotRep =>
    obtain ⟨d, w', hne, hall, rfl, _⟩ := numDotSeq_shape (shape_nDotRep h)
    exact head_of_run _ hne hall
  | parenNum =>
    obtain ⟨d, _, _, rfl⟩ := shape_parenNum h
    exact ⟨'(', _, rfl, by decide⟩
  | numParen =>
    obtain ⟨d, hne, hall, rfl⟩ := shape_numParen h
    exact head_of_run _ hne hall
  | parenAlpha =>
    obtain ⟨as, _, _, rfl⟩ := shape_parenAlpha h
    exact ⟨'(', _, rfl, by decide⟩
  | alphaParen =>
    obtain ⟨as, hne, hall, rfl⟩ := shape_alphaParen h
    exact head_of_run _ hne hall
  | nDot =>
    obtain ⟨d, hne, hall, rfl⟩ := shape_nDot h
    exact head_of_run _ hne hall
  | nSpace =>
    obtain ⟨d, sp, hne, hall, _, _, rfl⟩ := shape_nSpace h
    exact head_of_run _ hne hall
  | alphaDot =>
    obtain ⟨as, hne, hall, rfl⟩ := shape_alphaDot h
    exact head_of_run _ hne hall

/-- Every full match of a digit-led pattern has the digit-run normal form
with its after-run class. -/
theorem dv_of_full : ∀ (p : StartPat) (xb : Char → Bool), afterCls p = some xb →
    ∀ s, startFull p s = true → DV xb s := by
  intro p xb hp s h
  cases p <;> simp only [afterCls, Option.some.injEq] at hp <;>
    first
      | exact Option.noConfusion hp
      | subst hp
  case nDotNDashADot =>
    obtain ⟨d1, d2, a, hne, hall, _, _, _, rfl⟩ := shape_nDotNDashADot h
    exact ⟨d1, '.', _, hne, hall, by decide, by decide, rfl⟩
  case nDotNDashAParen =>
    obtain ⟨d1, d2, a, hne, hall, _, _, _, rfl⟩ := shape_nDotNDashAParen h
    exact ⟨d1, '.', _, hne, hall, by decide, by decide, rfl⟩
  case nDashADot =>
    obtain ⟨d, a, hne, hall, _, rfl⟩ := shape_nDashADot h
    exact ⟨d, '-', _, hne, hall, by decide, by decide, rfl⟩
  case nDashAParen =>
    obtain ⟨d, a, hne, hall, _, rfl⟩ := shape_nDashAParen h
    exact ⟨d, '-', _, hne, hall, by decide, by decide, rfl⟩
  case nDashASpace =>
    obtain ⟨d, a, sp, hne, hall, _, _, _, rfl⟩ := shape_nDashASpace h
    exact ⟨d, '-', _, hne, hall, by decide, by decide, rfl⟩
  case nADotSpace =>
    obtain ⟨d, a, sp, hne, hall, hcha, _, _, rfl⟩ := shape_nADotSpace h
    exact ⟨d, a, _, hne, hall, alpha_not_digit hcha, hcha, rfl⟩
  case nDotRep =>
    obtain ⟨d, w', hne, hall, rfl, _⟩ := numDotSeq_shape (shape_nDotRep h)
    exact ⟨d, '.', _, hne, hall, by decide, by decide, rfl⟩
  case numParen =>
    obtain ⟨d, hne, hall, rfl⟩ := shape_numParen h
    exact ⟨d, ')', [], hne, hall, by decide, by decide, rfl⟩
  case nDot =>
    obtain ⟨d, hne, hall, rfl⟩ := shape_nDot h
    exact ⟨d, '.', [], hne, hall, by decide, by decide, rfl⟩
  case nSpace =>
    obtain ⟨d, sp, hne, hall, hne2, hall2, rfl⟩ := shape_nSpace h
    cases sp with
    | nil => exact absurd rfl hne2
    | cons c sp' =>
      simp only [List.all_cons, Bool.and_eq_true] at hall2
      exact ⟨d, c, sp', hne, hall, space_not_digit hall2.1, hall2.1, rfl⟩

/-- Cross-family refutation: the head classes of the two patterns are
disjoint, so no full match of one is a prefix of a full match of the other. -/
theorem mechA {p q : StartPat}
    (hdisj : ∀ c, headCls p c = true → headCls q c = true → False) :
    ¬StartShadows p q := by
  rintro ⟨s, t, hps, hqt, hpre, _⟩
  obtain ⟨c, r1, rfl, h1⟩ := fc_of_full p s hps
  obtain ⟨c2, r2, rfl, h2⟩ := fc_of_full q t hqt
  obtain ⟨hc, _⟩ := List.cons_prefix_cons.mp hpre
  rw [hc] at h2
  exact hdisj c h1 h2

/-- Digit-family refutation: the classes of the character following the
initial digit run are disjoint. -/
theorem mechB {p q : StartPat} {xb yb : Char → Bool}
    (hp : afterCls p = some xb) (hq : afterCls q = some yb)
    (hdisj : ∀ c, xb c = true → yb c = true → False) : ¬StartShadows p q := by
  rintro ⟨s, t, hps, hqt, hpre, _⟩
  obtain ⟨d, x, u, hd1, hd2, hxd, hxb, rfl⟩ := dv_of_full p xb hp s hps
  obtain ⟨e, y, v, he1, he2, hyd, hyb, rfl⟩ := dv_of_full q yb hq t hqt
  obtain ⟨_, hyx, _⟩ := run_align e he2 hd2 hyd hxd hpre
  rw [hyx] at hyb
  exact hdisj x hxb hyb

theorem noSh_dADot_dAParen : ¬StartShadows .nDashADot .nDashAParen := by
  rintro ⟨s, t, hps, hqt, hpre, _⟩
  obtain ⟨d, a, _, hda, _, rfl⟩ := shape_nDashADot hps
  obtain ⟨e, b, _, hea, _, rfl⟩ := shape_nDashAParen hqt
  obtain ⟨_, _, huv⟩ := run_align e hea hda (by decide) (by decide) hpre
  obtain ⟨_, huv2⟩ := List.cons_prefix_cons.mp huv
  obtain ⟨h1, _⟩ := List.cons_prefix_cons.mp huv2
  exact absurd h1 (by decide)

theorem noSh_dAParen_dADot : ¬StartShadows .nDashAParen .nDashADot := by
  rintro ⟨s, t, hps, hqt, hpre, _⟩
  obtain ⟨d, a, _, hda, _, rfl⟩ := shape_nDashAParen hps
  obtain ⟨e, b, _, hea, _, rfl⟩ := shape_nDashADot hqt
  obtain ⟨_, _, huv⟩ := run_align e hea hda (by decide) (by decide) hpre
  obtain ⟨_, huv2⟩ := List.cons_prefix_cons.mp huv
  obtain ⟨h1, _⟩ := List.cons_prefix_cons.mp huv2
  exact absurd h1 (by decide)

theorem noSh_dADot_dASpace : ¬StartShadows .nDashADot .nDashASpace := by
  rintro ⟨s, t, hps, hqt, hpre, _⟩
  obtain ⟨d, a, _, hda, _, rfl⟩ := shape_nDashADot hps
  obtain ⟨e, b, sp, _, hea, _, hspne, hspall, rfl⟩ := shape_nDashASpace hqt
  obtain ⟨_, _, huv⟩ := run_align e hea hda (by decide) (by decide) hpre
  obtain ⟨_, huv2⟩ := List.cons_prefix_cons.mp huv
  cases sp with
  | nil => exact absurd rfl hspne
  | cons c sp' =>
    obtain ⟨h1, _⟩ := List.cons_prefix_cons.mp huv2
    simp only [List.all_cons, Bool.and_eq_true] at hspall
    rw [h1] at hspall
    exact absurd hspall.1 (by decide)

theorem noSh_dASpace_dADot : ¬StartShadows .nDashASpace .nDashADot := by
  rintro ⟨s, t, hps, hqt, hpre, _⟩
  obtain ⟨d, a, sp, _, hda, _, hspne, hspall, rfl⟩ := shape_nDashASpace hps
  obtain ⟨e, b, _, hea, _, rfl⟩ := shape_nDashADot hqt
  obtain ⟨_, _, huv⟩ := run_align e hea hda (by decide) (by decide) hpre
  obtain ⟨_, huv2⟩ := List.cons_prefix_cons.mp huv
  cases sp with
  | nil => exact absurd rfl hspne
  | cons c sp' =>
    obtain ⟨h1, _⟩ := List.cons_prefix_cons.mp huv2
    simp only [List.all_cons, Bool.and_eq_true] at hspall
    rw [← h1] at hspall
    exact absurd hspall.1 (by decide)

theorem noSh_dAParen_dASpace : ¬StartShadows .nDashAParen .nDashASpace := by
  rintro ⟨s, t, hps, hqt, hpre, _⟩
  obtain ⟨d, a, _, hda, _, rfl⟩ := shape_nDashAParen hps
  obtain ⟨e, b, sp, _, hea, _, hspne, hspall, rfl⟩ := shape_nDashASpace hqt
  obtain ⟨_, _, huv⟩ := run_align e hea hda (by decide) (by decide) hpre
  obtain ⟨_, huv2⟩ := List.cons_prefix_cons.mp huv
  cases sp with
  | nil => exact absurd rfl hspne
  | cons c sp' =>
    obtain ⟨h1, _⟩ := List.cons_prefix_cons.mp huv2
    simp only [List.all_cons, Bool.and_eq_true] at hspall
    rw [h1] at hspall
    exact absurd hspall.1 (by decide)

theorem noSh_dASpace_dAParen : ¬StartShadows .nDashASpace .nDashAParen := by
  rintro ⟨s, t, hps, hqt, hpre, _⟩
  obtain ⟨d, a, sp, _, hda, _, hspne, hspall, rfl⟩ := shape_nDashASpace hps
  obtain ⟨e, b, _, hea, _, rfl⟩ := shape_nDashAParen hqt
  obtain ⟨_, _, huv⟩ := run_align e hea hda (by decide) (by decide) hpre
  obtain ⟨_, huv2⟩ := List.cons_prefix_cons.mp huv
  cases sp with
  | nil => exact absurd rfl hspne
  | cons c sp' =>
    obtain ⟨h1, _⟩ := List.cons_prefix_cons.mp huv2
    simp only [List.all_cons, Bool.and_eq_true] at hspall
    rw [← h1] at hspall
    exact absurd hspall.1 (by decide)

theorem noSh_ddAParen_ddADot : ¬StartShadows .nDotNDashAParen .nDotNDashADot := by
  rintro ⟨s, t, hps, hqt, hpre, _⟩
  obtain ⟨d1, d2, a, _, hd1a, _, hd2a, _, rfl⟩ := shape_nDotNDashAParen hps
  obtain ⟨e1, e2, b, _, he1a, _, he2a, _, rfl⟩ := shape_nDotNDashADot hqt
  obtain ⟨_, _, huv⟩ := run_align e1 he1a hd1a (by decide) (by decide) hpre
  obtain ⟨_, _, huv2⟩ := run_align e2 he2a hd2a (by decide) (by decide) huv
  obtain ⟨_, huv3⟩ := List.cons_prefix_cons.mp huv2
  obtain ⟨h1, _⟩ := List.cons_prefix_cons.mp huv3
  exact absurd h1 (by decide)

theorem noSh_ddADot_ddAParen : ¬StartShadows .nDotNDashADot .nDotNDashAParen := by
  rintro ⟨s, t, hps, hqt, hpre, _⟩
  obtain ⟨d1, d2, a, _, hd1a, _, hd2a, _, rfl⟩ := shape_nDotNDashADot hps
  obtain ⟨e1, e2, b, _, he1a, _, he2a, _, rfl⟩ := shape_nDotNDashAParen hqt
  obtain ⟨_, _, huv⟩ := run_align e1 he1a hd1a (by decide) (by decide) hpre
  obtain ⟨_, _, huv2⟩ := run_align e2 he2a hd2a (by decide) (by decide) huv
  obtain ⟨_, huv3⟩ := List.cons_prefix_cons.mp huv2
  obtain ⟨h1, _⟩ := List.cons_prefix_cons.mp huv3
  exact absurd h1 (by decide)

theorem noSh_rep_ddADot : ¬StartShadows .nDotRep .nDotNDashADot := by
  rintro ⟨s, t, hps, hqt, hpre, _⟩
  obtain ⟨d, s', _, hda, rfl, hs'⟩ := numDotSeq_shape (shape_nDotRep hps)
  obtain ⟨e1, e2, b, _, he1a, _, he2a, _, rfl⟩ := shape_nDotNDashADot hqt
  obtain ⟨_, _, huv⟩ := run_align e1 he1a hda (by decide) (by decide) hpre
  rcases hs' with rfl | hs'
  · rw [List.prefix_nil] at huv
    simp at huv
  · obtain ⟨d', s'', _, hd'a, rfl, _⟩ := numDotSeq_shape hs'
    obtain ⟨_, h1, _⟩ := run_align e2 he2a hd'a (by decide) (by decide) huv
    exact absurd h1 (by decide)

theorem noSh_rep_ddAParen : ¬StartShadows .nDotRep .nDotNDashAParen := by
  rintro ⟨s, t, hps, hqt, hpre, _⟩
  obtain ⟨d, s', _, hda, rfl, hs'⟩ := numDotSeq_shape (shape_nDotRep hps)
  obtain ⟨e1, e2, b, _, he1a, _, he2a, _, rfl⟩ := shape_nDotNDashAParen hqt
  obtain ⟨_, _, huv⟩ := run_align e1 he1a hda (by decide) (by decide) hpre
  rcases hs' with rfl | hs'
  · rw [List.prefix_nil] at huv
    simp at huv
  · obtain ⟨d', s'', _, hd'a, rfl, _⟩ := numDotSeq_shape hs'
    obtain ⟨_, h1, _⟩ := run_align e2 he2a hd'a (by decide) (by decide) huv
    exact absurd h1 (by decide)

theorem noSh_nDot_ddADot : ¬StartShadows .nDot .nDotNDashADot := by
  rintro ⟨s, t, hps, hqt, hpre, _⟩
  obtain ⟨d, _, hda, rfl⟩ := shape_nDot hps
  obtain ⟨e1, e2, b, _, he1a, _, _, _, rfl⟩ := shape_nDotNDashADot hqt
  obtain ⟨_, _, huv⟩ := run_align e1 he1a hda (by decide) (by decide) hpre
  rw [List.prefix_nil] at huv
  simp at huv

theorem noSh_nDot_ddAParen : ¬StartShadows .nDot .nDotNDashAParen := by
  rintro ⟨s, t, hps, hqt, hpre, _⟩
  obtain ⟨d, _, hda, rfl⟩ := shape_nDot hps
  obtain ⟨e1, e2, b, _, he1a, _, _, _, rfl⟩ := shape_nDotNDashAParen hqt
  obtain ⟨_, _, huv⟩ := run_align e1 he1a hda (by decide) (by decide) hpre
  rw [List.prefix_nil] at huv
  simp at huv

theorem noSh_pAlpha_pNum : ¬StartShadows .parenAlpha .parenNum := by
  rintro ⟨s, t, hps, hqt, hpre, _⟩
  obtain ⟨as, hane, haall, rfl⟩ := shape_parenAlpha hps
  obtain ⟨d, hdne, hdall, rfl⟩ := shape_parenNum hqt
  obtain ⟨_, huv⟩ := List.cons_prefix_cons.mp hpre
  obtain ⟨c, r1, he1, hc1⟩ := head_of_run [')'] hdne hdall
  obtain ⟨c2, r2, he2, hc2⟩ := head_of_run [')'] hane haall
  rw [he1, he2] at huv
  obtain ⟨hcc, _⟩ := List.cons_prefix_cons.mp huv
  rw [hcc] at hc1
  exact disj_digit_alpha c2 hc1 hc2

theorem noSh_aDot_aParen : ¬StartShadows .alphaDot .alphaParen := by
  rintro ⟨s, t, hps, hqt, hpre, _⟩
  obtain ⟨as, _, haall, rfl⟩ := shape_alphaDot hps
  obtain ⟨bs, _, hball, rfl⟩ := shape_alphaParen hqt
  obtain ⟨_, h1, _⟩ :=
    run_align bs hball haall (by decide : isAlphaC ')' = false)
      (by decide : isAlphaC '.' = false) hpre
  exact absurd h1 (by decide)

theorem noSh_nDot_rep : ¬StartShadows .nDot .nDotRep := by
  rintro ⟨s, t, hps, hqt, hpre, hnst⟩
  obtain ⟨d, _, hda, rfl⟩ := shape_nDot hps
  obtain ⟨e, t', _, hea, rfl, _⟩ := numDotSeq_shape (shape_nDotRep hqt)
  obtain ⟨hed, _, huv⟩ := run_align e hea hda (by decide) (by decide) hpre
  rw [List.prefix_nil] at huv
  rw [hed, huv] at hnst
  exact hnst rfl

/-! ### Claim theorems -/

/-- Input of the concrete scenario of claim C1: an article-title block
followed by two marked body blocks. -/
def blocksC1 : List Block :=
  [⟨.pylist ["oj-ti-art".data], "Article 4".data⟩,
   ⟨.pylist ["oj-normal".data], "1. Member States shall comply.".data⟩,
   ⟨.pylist ["oj-normal".data], "2. They shall notify the Commission.".data⟩]

/-- C1, counterexample: on the scenario input the walker emits two records
whose `article` field is the empty string, not "Article 4" — the pre-scan
discards every block before the first body-text block, including the
article-title block that opens this sequence. -/
theorem claim_C1_counterexample :
    parse_html_passages "Directive X" blocksC1 =
      .ok [⟨"Directive X", [], [], [], [], "Member States shall comply.".data, "1.".data⟩,
           ⟨"Directive X", [], [], [], [], "They shall notify the Commission.".data,
             "2.".data⟩] ∧
    ([] : List Char) ≠ "Article 4".data := ⟨rfl, by decide⟩

/-- C1, amended: the walker emits exactly two records with ref "1." / "2." and
the marker-stripped texts, but both records carry `article = ""` because the
pre-scan discards the leading article-title block together with all other
blocks preceding the first body-text block. -/
theorem claim_C1_main :
    parse_html_passages "Directive X" blocksC1 =
      .ok [⟨"Directive X", [], [], [], [], "Member States shall comply.".data, "1.".data⟩,
           ⟨"Directive X", [], [], [], [], "They shall notify the Commission.".data,
             "2.".data⟩] := rfl

/-- Input of the counterexample of claim C2: the marker token "1." occurs
again inside the sentence. -/
def blocksC2 : List Block :=
  [⟨.pylist ["oj-normal".data], "1. See point 1. here.".data⟩]

/-- C2, counterexample: `text.replace(ref, "")` removes every occurrence of
the marker, so the later "1." inside the sentence is not preserved: the
emitted text is "See point  here.", not the prefix-stripped remainder
"See point 1. here.". -/
theorem claim_C2_counterexample :
    parse_html_passages "d" blocksC2 =
      .ok [⟨"d", [], [], [], [], "See point  here.".data, "1.".data⟩] ∧
    "See point  here.".data ≠
      specRemainder "1.".data "1. See point 1. here.".data := ⟨rfl, by decide⟩

/-- C2, amended: when the isolated test fails and a starting marker matches,
the emitted text is the input with every occurrence of the marker removed and
trimmed; provided the marker does not occur again after the matched prefix,
this equals the prefix-stripped, trimmed remainder claimed by the spec. -/
theorem claim_C2_main (doc : String) (st : WalkState) (c0 t raw m : List Char)
    (cs : List (List Char))
    (hc : c0 = "normal".data ∨ c0 = "oj-normal".data)
    (ht : t = normText raw)
    (hiso : isolatedMatch t = false)
    (hm : startingMatch t = some m)
    (hocc : occursIn m (t.drop m.length) = false) :
    stepBlock doc st ⟨.pylist (c0 :: cs), raw⟩ =
      .ok ⟨st.heading, st.section_, st.article, st.article_subtitle, m, false,
        st.records ++ [⟨doc, st.heading, st.section_, st.article, st.article_subtitle,
          specRemainder m t, m⟩]⟩ := by
  subst ht
  obtain ⟨⟨r, hr⟩, hne⟩ := startingMatch_sound hm
  have hdrop : (normText raw).drop m.length = r := by rw [hr]; exact List.drop_left m r
  have hocc' : occursIn m r = false := by rw [← hdrop]; exact hocc
  have hrepl : replaceAll m (normText raw) = r := by
    rw [hr]; exact replaceAll_strip_lead hne hocc'
  have hrem : specRemainder m (normText raw) = pyStrip r := by
    unfold specRemainder; rw [hdrop]
  rw [stepBlock_normal doc c0 hc st raw cs, stepNormal_starting hiso hm, hrepl, hrem]

/-- C2, witness: a concrete marked block with no reoccurring marker. -/
theorem claim_C2_witness :
    stepBlock "d" initState ⟨.pylist ["oj-normal".data], "3. Done now".data⟩ =
      .ok ⟨[], [], [], [], "3.".data, false,
        [⟨"d", [], [], [], [], "Done now".data, "3.".data⟩]⟩ :=
  claim_C2_main "d" initState "oj-normal".data _ "3. Done now".data "3.".data []
    (Or.inr rfl) rfl (by decide) (by decide) (by decide)

/-- Input of the counterexample of claim C3: one block carrying two CSS
classes. -/
def blocksC3 : List Block :=
  [⟨.pylist ["oj-normal".data, "oj-italic".data], "Plain continuation sentence.".data⟩]

/-- C3, counterexample: a block whose class attribute is a list of two classes
does NOT abort the document: the walker returns a full record set for it,
processing the block under its first class. -/
theorem claim_C3_counterexample :
    parse_html_passages "d" blocksC3 =
      .ok [⟨"d", [], [], [], [], "Plain continuation sentence.".data, []⟩] := rfl

/-- C3, amended: only a class attribute that is not a list at all is fatal
(AssertionError with the source's message); a list of two or more classes is
non-fatal and is processed exactly as if only its first class were present
(the anomaly is merely printed). -/
theorem claim_C3_main :
    (∀ (doc : String) (st : WalkState) (s raw : List Char),
      stepBlock doc st ⟨.pystr s, raw⟩ =
        .error (.assertionError "The CSS class attr is not a list")) ∧
    (∀ (doc : String) (st : WalkState) (c0 c1 : List Char) (cs : List (List Char))
      (raw : List Char),
      stepBlock doc st ⟨.pylist (c0 :: c1 :: cs), raw⟩ =
        stepBlock doc st ⟨.pylist [c0], raw⟩) :=
  ⟨fun _ _ _ _ => rfl, fun _ _ _ _ _ _ => rfl⟩

/-- C4: an isolated-marker body block, then a no-marker body block, then a
second no-marker body block: exactly one record is emitted for each no-marker
block; the first inherits the isolated marker as its ref, the second gets the
empty ref (the pending reference is single-use). -/
theorem claim_C4_main (doc : String) (st : WalkState) (c0 c1 c2 t0 t1 t2 : List Char)
    (hc0 : c0 = "normal".data ∨ c0 = "oj-normal".data)
    (hc1 : c1 = "normal".data ∨ c1 = "oj-normal".data)
    (hc2 : c2 = "normal".data ∨ c2 = "oj-normal".data)
    (h0 : isolatedMatch (normText t0) = true)
    (h1i : isolatedMatch (normText t1) = false) (h1s : startingMatch (normText t1) = none)
    (h2i : isolatedMatch (normText t2) = false) (h2s : startingMatch (normText t2) = none) :
    ∃ st' : WalkState,
      walkBlocks doc st
        [⟨.pylist [c0], t0⟩, ⟨.pylist [c1], t1⟩, ⟨.pylist [c2], t2⟩] = .ok st' ∧
      st'.records = st.records ++
        [⟨doc, st.heading, st.section_, st.article, st.article_subtitle,
          normText t1, normText t0⟩,
         ⟨doc, st.heading, st.section_, st.article, st.article_subtitle,
          normText t2, []⟩] := by
  refine ⟨⟨st.heading, st.section_, st.article, st.article_subtitle, [], false,
    (st.records ++ [⟨doc, st.heading, st.section_, st.article, st.article_subtitle,
      normText t1, normText t0⟩]) ++
    [⟨doc, st.heading, st.section_, st.article, st.article_subtitle,
      normText t2, []⟩]⟩, ?_, by simp⟩
  simp only [walkBlocks, stepBlock_normal doc c0 hc0, stepBlock_normal doc c1 hc1,
    stepBlock_normal doc c2 hc2, stepNormal_isolated h0, stepNormal_noMarker h1i h1s,
    stepNormal_noMarker h2i h2s]
  rfl

/-- C4, witness: a concrete isolated marker "1." followed by two plain body
blocks. -/
theorem claim_C4_witness :
    ∃ st' : WalkState,
      walkBlocks "d" initState
        [⟨.pylist ["oj-normal".data], "1.".data⟩,
         ⟨.pylist ["oj-normal".data], "Body text one".data⟩,
         ⟨.pylist ["oj-normal".data], "Body text two".data⟩] = .ok st' ∧
      st'.records = initState.records ++
        [⟨"d", [], [], [], [], normText "Body text one".data, normText "1.".data⟩,
         ⟨"d", [], [], [], [], normText "Body text two".data, []⟩] :=
  claim_C4_main "d" initState "oj-normal".data "oj-normal".data "oj-normal".data
    "1.".data "Body text one".data "Body text two".data
    (Or.inr rfl) (Or.inr rfl) (Or.inr rfl)
    (by decide) (by decide) (by decide) (by decide) (by decide)

/-- C5, counterexample: in the isolated-marker list the general family
`([0-9]+\.)+$` sits at index 0, before the more specific
`([0-9]+\.)+\-[a-z]\.$` at index 1, even though the former fully matches the
proper prefix "1." of "1.-a.", a string the latter matches in full — so the
lists are not uniformly ordered most-specific-first. -/
theorem claim_C5_counterexample :
    List.indexOf IsoPat.repNumDot ISOLATED_MARKER_PATTERNS <
      List.indexOf IsoPat.repNumDotDashADot ISOLATED_MARKER_PATTERNS ∧
    isoFull IsoPat.repNumDotDashADot "1.-a.".data = true ∧
    isoFull IsoPat.repNumDot "1.".data = true ∧
    "1.".data.isPrefixOf "1.-a.".data = true ∧
    "1.".data ≠ "1.-a.".data := by decide

/-- C5, amended: restricted to the starting-marker list, the ordering claim
holds universally — for every pair of distinct sub-patterns where one fully
matches a proper prefix of a string the other matches in full, the
longer/more-specific pattern appears strictly earlier in the list.  The
isolated-marker list violates this ordering (see the counterexample), though
order is immaterial there because every isolated pattern is end-anchored. -/
theorem claim_C5_main (p q : StartPat) (hne : p ≠ q) (hsh : StartShadows p q) :
    List.indexOf p STARTING_MARKER_PATTERNS <
      List.indexOf q STARTING_MARKER_PATTERNS := by
  cases p <;> cases q <;>
    first
      | exact absurd rfl hne
      | decide
      | exact absurd hsh (mechA (disj_litC_left (by decide)))
      | exact absurd hsh (mechA (disj_litC_right (by decide)))
      | exact absurd hsh (mechA disj_digit_alpha)
      | exact absurd hsh (mechA disj_alpha_digit)
      | exact absurd hsh (mechB rfl rfl (disj_litC_left (by decide)))
      | exact absurd hsh (mechB rfl rfl (disj_litC_right (by decide)))
      | exact absurd hsh (mechB rfl rfl disj_alpha_space)
      | exact absurd hsh (mechB rfl rfl disj_space_alpha)
      | exact absurd hsh noSh_dADot_dAParen
      | exact absurd hsh noSh_dAParen_dADot
      | exact absurd hsh noSh_dADot_dASpace
      | exact absurd hsh noSh_dASpace_dADot
      | exact absurd hsh noSh_dAParen_dASpace
      | exact absurd hsh noSh_dASpace_dAParen
      | exact absurd hsh noSh_ddAParen_ddADot
      | exact absurd hsh noSh_ddADot_ddAParen
      | exact absurd hsh noSh_rep_ddADot
      | exact absurd hsh noSh_rep_ddAParen
      | exact absurd hsh noSh_nDot_ddADot
      | exact absurd hsh noSh_nDot_ddAParen
      | exact absurd hsh noSh_nDot_rep
      | exact absurd hsh noSh_pAlpha_pNum
      | exact absurd hsh noSh_aDot_aParen

/-- C5, witness: the specific pattern `N.N-a.` fully matches "1.2-a.", whose
proper prefix "1." is fully matched by the general pattern `N.`, and the
specific one indeed appears earlier in the list. -/
theorem claim_C5_witness :
    List.indexOf StartPat.nDotNDashADot STARTING_MARKER_PATTERNS <
      List.indexOf StartPat.nDot STARTING_MARKER_PATTERNS :=
  claim_C5_main .nDotNDashADot .nDot (by decide)
    ⟨"1.2-a.".data, "1.".data, by decide, by decide, ⟨"2-a.".data, by decide⟩, by decide⟩

/-- C6: the Marker Classifier is total — for every string it returns exactly
one of the three outcomes, and a string matching no pattern at all yields the
no-marker outcome with the string unchanged. -/
theorem claim_C6_main (s : List Char) :
    (isolatedMatch s = true ∧ classifyMarker s = .isolated s) ∨
    (∃ m, isolatedMatch s = false ∧ startingMatch s = some m ∧
      classifyMarker s = .starting m (pyStrip (replaceAll m s))) ∨
    (isolatedMatch s = false ∧ startingMatch s = none ∧
      classifyMarker s = .noMarker s) := by
  cases hiso : isolatedMatch s with
  | true => exact Or.inl ⟨rfl, classify_isolated hiso⟩
  | false =>
    cases hs : startingMatch s with
    | some m => exact Or.inr (Or.inl ⟨m, rfl, rfl, classify_starting hiso hs⟩)
    | none => exact Or.inr (Or.inr ⟨rfl, rfl, classify_noMarker hiso hs⟩)

/-- C7: the nesting invariant of the hierarchical context — a document-title
block sets the heading and clears section, article and subtitle; a
section-title block sets the section and clears article and subtitle; an
article-title block sets the article and clears only the subtitle; and a
body-text block never mutates any of the four context fields. -/
theorem claim_C7_main (doc : String) (st : WalkState) (raw c0 : List Char)
    (cs : List (List Char)) :
    ((c0 = "doc-ti".data ∨ c0 = "oj-doc-ti".data) →
      stepBlock doc st ⟨.pylist (c0 :: cs), raw⟩ =
        .ok ⟨normText raw, [], [], [], [], st.prevMarker, st.records⟩) ∧
    ((c0 = "ti-section".data ∨ c0 = "oj-ti-section".data) →
      stepBlock doc st ⟨.pylist (c0 :: cs), raw⟩ =
        .ok ⟨st.heading, normText raw, [], [], [], st.prevMarker, st.records⟩) ∧
    ((c0 = "ti-art".data ∨ c0 = "oj-ti-art".data) →
      stepBlock doc st ⟨.pylist (c0 :: cs), raw⟩ =
        .ok ⟨st.heading, st.section_, normText raw, [], [], st.prevMarker, st.records⟩) ∧
    ((c0 = "normal".data ∨ c0 = "oj-normal".data) →
      ∃ st', stepBlock doc st ⟨.pylist (c0 :: cs), raw⟩ = .ok st' ∧
        st'.heading = st.heading ∧ st'.section_ = st.section_ ∧
        st'.article = st.article ∧ st'.article_subtitle = st.article_subtitle) := by
  refine ⟨?_, ?_, ?_, ?_⟩
  · rintro (rfl | rfl) <;> rfl
  · rintro (rfl | rfl) <;> rfl
  · rintro (rfl | rfl) <;> rfl
  · intro hc
    refine ⟨stepNormal doc st (normText raw), stepBlock_normal doc c0 hc st raw cs, ?_⟩
    obtain ⟨e1, e2, e3, e4⟩ := stepNormal_ctx doc st (normText raw)
    exact ⟨e1, e2, e3, e4⟩

/-- C7, witness: the four branches at concrete blocks. -/
theorem claim_C7_witness :
    stepBlock "d" initState ⟨.pylist ["doc-ti".data], "Heading One".data⟩ =
      .ok ⟨normText "Heading One".data, [], [], [], [], initState.prevMarker,
        initState.records⟩ ∧
    stepBlock "d" initState ⟨.pylist ["oj-ti-section".data], "Section One".data⟩ =
      .ok ⟨initState.heading, normText "Section One".data, [], [], [],
        initState.prevMarker, initState.records⟩ ∧
    stepBlock "d" initState ⟨.pylist ["oj-ti-art".data], "Article 9".data⟩ =
      .ok ⟨initState.heading, initState.section_, normText "Article 9".data, [], [],
        initState.prevMarker, initState.records⟩ ∧
    (∃ st', stepBlock "d" initState ⟨.pylist ["oj-normal".data], "Body words".data⟩ =
        .ok st' ∧
      st'.heading = initState.heading ∧ st'.section_ = initState.section_ ∧
      st'.article = initState.article ∧
      st'.article_subtitle = initState.article_subtitle) :=
  ⟨(claim_C7_main "d" initState "Heading One".data "doc-ti".data []).1 (Or.inl rfl),
   (claim_C7_main "d" initState "Section One".data "oj-ti-section".data []).2.1
     (Or.inr rfl),
   (claim_C7_main "d" initState "Article 9".data "oj-ti-art".data []).2.2.1
     (Or.inr rfl),
   (claim_C7_main "d" initState "Body words".data "oj-normal".data []).2.2.2
     (Or.inr rfl)⟩

/-- Input of the counterexample of claim C8: removing all occurrences of the
matched marker "1 " from "1 11  x" re-creates the marker at the front of the
emitted text. -/
def blocksC8 : List Block :=
  [⟨.pylist ["oj-normal".data], "1 11  x".data⟩]

/-- C8, counterexample: the record produced for "1 11  x" has ref "1 " and
text "1 x", and the text DOES contain the ref as a prefix, because
`str.replace` removes interior occurrences whose deletion glues "1" and " x"
back together. -/
theorem claim_C8_counterexample :
    parse_html_passages "d" blocksC8 =
      .ok [⟨"d", [], [], [], [], "1 x".data, "1 ".data⟩] ∧
    "1 ".data.isPrefixOf "1 x".data = true ∧
    "1 ".data ≠ ([] : List Char) := ⟨rfl, by decide, by decide⟩

/-- C8, amended: for a record produced via the starting-marker path, the text
does not contain the ref as a prefix provided the matched marker does not
occur again in the input after the matched prefix. -/
theorem claim_C8_main (doc : String) (st : WalkState) (c0 t raw m : List Char)
    (cs : List (List Char))
    (hc : c0 = "normal".data ∨ c0 = "oj-normal".data)
    (ht : t = normText raw)
    (hiso : isolatedMatch t = false)
    (hm : startingMatch t = some m)
    (hocc : occursIn m (t.drop m.length) = false) :
    ∃ recText : List Char,
      stepBlock doc st ⟨.pylist (c0 :: cs), raw⟩ =
        .ok ⟨st.heading, st.section_, st.article, st.article_subtitle, m, false,
          st.records ++ [⟨doc, st.heading, st.section_, st.article, st.article_subtitle,
            recText, m⟩]⟩ ∧
      m.isPrefixOf recText = false := by
  subst ht
  obtain ⟨⟨r, hr⟩, hne⟩ := startingMatch_sound hm
  have hdrop : (normText raw).drop m.length = r := by rw [hr]; exact List.drop_left m r
  have hocc' : occursIn m r = false := by rw [← hdrop]; exact hocc
  have hrepl : replaceAll m (normText raw) = r := by
    rw [hr]; exact replaceAll_strip_lead hne hocc'
  refine ⟨pyStrip (replaceAll m (normText raw)), ?_, ?_⟩
  · rw [stepBlock_normal doc c0 hc st raw cs, stepNormal_starting hiso hm]
  · rw [hrepl]
    exact not_isPrefixOf_pyStrip hne hocc'

/-- C8, witness: a concrete marked block with no reoccurring marker. -/
theorem claim_C8_witness :
    ∃ recText : List Char,
      stepBlock "d" initState ⟨.pylist ["oj-normal".data], "4. Next item".data⟩ =
        .ok ⟨[], [], [], [], "4.".data, false,
          [⟨"d", [], [], [], [], recText, "4.".data⟩]⟩ ∧
      "4.".data.isPrefixOf recText = false :=
  claim_C8_main "d" initState "oj-normal".data _ "4. Next item".data "4.".data []
    (Or.inr rfl) rfl (by decide) (by decide) (by decide)

/-- C9: on the empty block sequence the walker fails (the pre-scan loop
variable is never bound, so the slice raises NameError) and in particular it
does not return an empty record sequence. -/
theorem claim_C9_main (doc : String) :
    parse_html_passages doc [] = .error .nameError ∧
    ∀ recs : List Record, parse_html_passages doc [] ≠ .ok recs := by
  refine ⟨rfl, ?_⟩
  intro recs h
  exact Except.noConfusion h

/-- C10: the pending reference survives article-subtitle and ignorable blocks
between the isolated-marker block and the next no-marker body block: that
body block's record still inherits the isolated marker as its ref. -/
theorem claim_C10_main (doc : String) (st : WalkState) (t0 t2 : List Char)
    (mids : List Block) (hmids : ∀ b ∈ mids, midOk b)
    (h0 : isolatedMatch (normText t0) = true)
    (h2i : isolatedMatch (normText t2) = false)
    (h2s : startingMatch (normText t2) = none) :
    ∃ (st' : WalkState) (sub : List Char),
      walkBlocks doc st (⟨.pylist ["oj-normal".data], t0⟩ ::
        (mids ++ [⟨.pylist ["oj-normal".data], t2⟩])) = .ok st' ∧
      st'.records = st.records ++
        [⟨doc, st.heading, st.section_, st.article, sub, normText t2, normText t0⟩] := by
  have e0 : stepBlock doc st ⟨.pylist ["oj-normal".data], t0⟩ =
      .ok { st with ref := normText t0, prevMarker := true } := by
    rw [stepBlock_normal doc _ (Or.inr rfl) st t0 [], stepNormal_isolated h0]
  obtain ⟨stM, heM, g1, g2, g3, g4, g5, g6⟩ :=
    walk_mids doc mids hmids { st with ref := normText t0, prevMarker := true }
  have g1' : stM.heading = st.heading := g1
  have g2' : stM.section_ = st.section_ := g2
  have g3' : stM.article = st.article := g3
  have g4' : stM.ref = normText t0 := g4
  have g5' : stM.prevMarker = true := g5
  have g6' : stM.records = st.records := g6
  refine ⟨⟨stM.heading, stM.section_, stM.article, stM.article_subtitle,
    (if stM.prevMarker then stM.ref else []), false,
    stM.records ++ [⟨doc, stM.heading, stM.section_, stM.article, stM.article_subtitle,
      normText t2, (if stM.prevMarker then stM.ref else [])⟩]⟩,
    stM.article_subtitle, ?_, by simp [g1', g2', g3', g4', g5', g6']⟩
  show ((match stepBlock doc st ⟨.pylist ["oj-normal".data], t0⟩ with
    | Except.error e => Except.error e
    | Except.ok s =>
      walkBlocks doc s (mids ++ [⟨.pylist ["oj-normal".data], t2⟩])) :
    Except PyErr WalkState) = _
  rw [e0]
  show walkBlocks doc { st with ref := normText t0, prevMarker := true }
    (mids ++ [⟨.pylist ["oj-normal".data], t2⟩]) = _
  rw [walkBlocks_append_ok doc _ mids _ stM heM]
  show ((match stepBlock doc stM ⟨.pylist ["oj-normal".data], t2⟩ with
    | Except.error e => Except.error e
    | Except.ok s => walkBlocks doc s []) : Except PyErr WalkState) = _
  rw [stepBlock_normal doc _ (Or.inr rfl) stM t2 [], stepNormal_noMarker h2i h2s]
  rfl

/-- C10, witness: an isolated marker, then a subtitle block and an ignorable
note block, then a plain body block: the body record still inherits "1.". -/
theorem claim_C10_witness :
    ∃ (st' : WalkState) (sub : List Char),
      walkBlocks "d" initState
        (⟨.pylist ["oj-normal".data], "1.".data⟩ ::
          ([⟨.pylist ["sti-art".data], "Subtitle here".data⟩,
            ⟨.pylist ["oj-note".data], "a footnote".data⟩] ++
           [⟨.pylist ["oj-normal".data], "Trailing body".data⟩])) = .ok st' ∧
      st'.records = initState.records ++
        [⟨"d", [], [], [], sub, normText "Trailing body".data, normText "1.".data⟩] :=
  claim_C10_main "d" initState "1.".data "Trailing body".data
    [⟨.pylist ["sti-art".data], "Subtitle here".data⟩,
     ⟨.pylist ["oj-note".data], "a footnote".data⟩]
    (by
      intro b hb
      simp only [List.mem_cons, List.not_mem_nil, or_false] at hb
      rcases hb with rfl | rfl
      · exact ⟨"sti-art".data, [], rfl, Or.inr (Or.inl rfl)⟩
      · exact ⟨"oj-note".data, [], rfl, Or.inl (by decide)⟩)
    (by decide) (by decide) (by decide)

